import Mathlib

/-!
Verification of the publisher release orchestrator against its specification.

The definitions below are a shallow embedding of the TypeScript sources:
`src/core/git.ts` (GitService), `src/commands/validate.ts`,
`src/commands/release.ts` and `templates/monorepo-config.ts`.
External processes (git subcommands) are modelled by explicit environment
records whose fields give the text returned by each command, with `none`
standing for a command that fails (throws).  JavaScript truthiness of
optional strings/booleans is modelled explicitly.
-/

namespace Publisher

/-- JS truthiness of an optional boolean (`undefined` and `false` are falsy). -/
def optTruthy : Option Bool → Bool
  | none => false
  | some b => b

/-- JS truthiness of an optional string (`undefined`, `null` and `""` are falsy). -/
def strTruthy : Option String → Bool
  | none => false
  | some s => s ≠ ""

/-- JS nullish coalescing `a ?? b` on optional values. -/
def nco {α : Type} : Option α → Option α → Option α
  | some x, _ => some x
  | none, b => b

/-- One scan step of JS `String.prototype.includes`: does `pat` occur
(as a contiguous run) anywhere in the character list? -/
def hasOccur (pat : List Char) : List Char → Bool
  | [] => pat.isPrefixOf []
  | c :: cs => pat.isPrefixOf (c :: cs) || hasOccur pat cs

/-- JS `s.includes(sub)`. -/
def jsIncludes (s sub : String) : Bool := hasOccur sub.data s.data

/-- JS `String.prototype.replace` with a string pattern replaces only the
first occurrence; this is the list-level worker (literal replacement). -/
def replFirst (pat rep : List Char) : List Char → List Char
  | [] => if pat.isPrefixOf ([] : List Char) then rep else []
  | c :: cs =>
    if pat.isPrefixOf (c :: cs) then rep ++ (c :: cs).drop pat.length
    else c :: replFirst pat rep cs

/-- JS `s.replace(pat, rep)` for a string pattern: first occurrence only,
with `rep` inserted literally (the `$`-escape forms of the replacement
string are not modelled; the program only substitutes version strings). -/
def replaceFirst (s pat rep : String) : String :=
  ⟨replFirst pat.data rep.data s.data⟩

/-- Worker for JS `String.prototype.split` with a non-empty string
separator: scan left to right, cut at each non-overlapping occurrence of
`sep`; `skip` counts separator characters still to be consumed after a
match. -/
def jsSplitGo (sep : List Char) : Nat → List Char → List (List Char)
  | _, [] => [[]]
  | skip+1, _ :: cs => jsSplitGo sep skip cs
  | 0, c :: cs =>
    if sep ≠ [] ∧ sep.isPrefixOf (c :: cs) then
      [] :: jsSplitGo sep (sep.length - 1) cs
    else
      match jsSplitGo sep 0 cs with
      | [] => [[c]]
      | p :: ps => (c :: p) :: ps

/-- JS `s.split(sep)` for the non-empty separators this program uses
(JS's special case for the empty separator is not modelled). -/
def jsSplit (s sep : String) : List String :=
  (jsSplitGo sep.data 0 s.data).map (fun l => ⟨l⟩)

/-- Worker for JS `Array.prototype.join`. -/
def jsJoinList (sep : List Char) : List (List Char) → List Char
  | [] => []
  | [x] => x
  | x :: xs => x ++ sep ++ jsJoinList sep xs

/-- JS `parts.join(sep)`. -/
def jsJoin (sep : String) (l : List String) : String :=
  ⟨jsJoinList sep.data (l.map String.data)⟩

/-- JS `s.startsWith(pre)`. -/
def jsStartsWith (s pre : String) : Bool := pre.data.isPrefixOf s.data

/-! ### Commit History Reader (`GitService.getCommitsSinceTag` / `getAllCommits`) -/

/-- `GitCommit` record of `src/core/git.ts`. -/
structure GitCommit where
  hash : String
  date : String
  message : String
  body : Option String
  files : List String
deriving DecidableEq, Repr

/-- `GetCommitsOptions` of `src/core/git.ts` (all fields optional). -/
structure GetCommitsOptions where
  packageName : Option String
  packagePath : Option String
  filterByPath : Option Bool
deriving DecidableEq, Repr

/-- Environment: the raw text produced by the git subcommands that
`getCommitsSinceTag`/`getAllCommits` run; `none` models a command that
throws. -/
structure GitLogEnv where
  verify : Option String
  logSince : String → Option String
  logAll : Option String

/-- Parse one chunk (split at the `COMMIT` marker) into a commit record;
`none` models the `continue` that skips a malformed record.  Mirrors the
chunk-parsing loop shared by `getCommitsSinceTag` and `getAllCommits`. -/
def parseChunk (chunk : String) : Option GitCommit :=
  let parts := jsSplit chunk "\nFILES\n"
  let commitData := parts.headD ""
  let filesList : Option String := parts.get? 1
  let lines := (jsSplit commitData "\n").filter (· ≠ "")
  let rest := if lines.headD "" = "COMMIT" then lines.drop 1 else lines
  match rest with
  | hash :: date :: message :: bodyLines =>
    some
      { hash := hash
        date := date
        message := message
        body := if bodyLines.length > 0 then some (jsJoin "\n" bodyLines) else none
        files := match filesList with
          | some fl => (jsSplit fl "\n").filter (· ≠ "")
          | none => [] }
  | _ => none

/-- Parse a whole `git log --format=COMMIT%n%H%n%aI%n%s%n%b%nFILES --name-only`
output into commit records (the loop bodies of both readers). -/
def parseCommits (result : String) : List GitCommit :=
  ((jsSplit result "\nCOMMIT\n").filter (· ≠ "")).filterMap parseChunk

/-- `GitService.getAllCommits`: parses the full log; a failing git call is
caught and yields `[]`. -/
def getAllCommits (env : GitLogEnv) : List GitCommit :=
  match env.logAll with
  | none => []
  | some result => if result = "" then [] else parseCommits result

/-- The path predicate of the commit filter: some changed file starts with
the package's path relative to the repository root (`rel` models Node's
`path.relative`, kept abstract). -/
def pathPred (rootDir : String) (rel : String → String → String)
    (opts : GetCommitsOptions) (c : GitCommit) : Bool :=
  strTruthy opts.packagePath &&
    c.files.any (fun f => jsStartsWith f (rel rootDir (opts.packagePath.getD "")))

/-- The package-name predicate of the commit filter: subject or body
contains the literal marker `(<packageName>)`. -/
def namePred (opts : GetCommitsOptions) (c : GitCommit) : Bool :=
  strTruthy opts.packageName &&
    (jsIncludes c.message ("(" ++ opts.packageName.getD "" ++ ")") ||
      (match c.body with
        | some b => jsIncludes b ("(" ++ opts.packageName.getD "" ++ ")")
        | none => false))

/-- The filtering stage of `getCommitsSinceTag`: two hash sets are filled
from the path and name predicates, then commits whose hash is in either
set are kept (OR). -/
def filterWithOptions (rootDir : String) (rel : String → String → String)
    (opts : GetCommitsOptions) (commits : List GitCommit) : List GitCommit :=
  let matchedByPath := (commits.filter (pathPred rootDir rel opts)).map GitCommit.hash
  let matchedByName := (commits.filter (namePred opts)).map GitCommit.hash
  commits.filter (fun c => matchedByPath.contains c.hash || matchedByName.contains c.hash)

/-- `GitService.getCommitsSinceTag`: empty tag falls back to
`getAllCommits`; any git failure is caught and yields `[]`; parsed commits
are filtered only when an options object is supplied. -/
def getCommitsSinceTag (rootDir : String) (rel : String → String → String)
    (env : GitLogEnv) (tag : String) (options : Option GetCommitsOptions) :
    List GitCommit :=
  if tag = "" then getAllCommits env
  else
    match env.verify with
    | none => []
    | some _ =>
      match env.logSince tag with
      | none => []
      | some result =>
        if result = "" then []
        else
          let commits := parseCommits result
          match options with
          | none => commits
          | some opts => filterWithOptions rootDir rel opts commits

/-! ### Version comparison and tag selection (`compareVersions`, `getLastTag`) -/

/-- Exact value of a decimal digit list (most significant first) — the
infinitely precise value of the segment, before any floating-point
rounding. -/
def digitsVal (l : List Char) : Nat :=
  l.foldl (fun n c => 10 * n + (c.toNat - 48)) 0

/-- Number of bits of `n` (0 for 0), computed with the argument itself as
fuel (the recursion halves `n`, so only about `log₂ n` steps run). -/
def bitlenAux : Nat → Nat → Nat
  | 0, _ => 0
  | fuel+1, n => if n = 0 then 0 else bitlenAux fuel (n / 2) + 1

/-- Bit length of a natural number. -/
def bitlen (n : Nat) : Nat := bitlenAux n n

/-- `2^1024`, the IEEE-754 binary64 overflow bound, written as a literal
so that kernel evaluation (`decide`) stays cheap; `dblMax_eq` below ties
it to `2 ^ 1024`. -/
def dblMax : Nat := 179769313486231590772930519078902473361797697894230657273430081157732675805500963132708477322407536021120113879871393357658789768814416622492847430639474124377767893424865485276302219601246094119453082952085005768838150682342462881473913110540827237163350510684586298239947245938479716304835356329624224137216

/-- Rounded 53-bit significand of `n` (meaningful for `n ≥ 2^53`): the
quotient by `2^(bitlen n - 53)`, rounded to nearest, ties to even. -/
def roundSig (n : Nat) : Nat :=
  if 2 ^ (bitlen n - 53) / 2 < n % 2 ^ (bitlen n - 53) ∨
      (n % 2 ^ (bitlen n - 53) = 2 ^ (bitlen n - 53) / 2 ∧
        (n / 2 ^ (bitlen n - 53)) % 2 = 1) then
    n / 2 ^ (bitlen n - 53) + 1
  else n / 2 ^ (bitlen n - 53)

/-- Round a natural number to the nearest IEEE-754 binary64 value
(round-to-nearest, ties-to-even), as JS `Number` does when parsing an
integer literal: values below `2^53` are exact; larger values keep a
53-bit significand (every such double is an integer, returned as the
`Nat` it denotes); results reaching `2^1024` overflow to `+Infinity`,
modelled as `none`. -/
def roundDouble (n : Nat) : Option Nat :=
  if n < 2 ^ 53 then some n
  else if dblMax ≤ roundSig n * 2 ^ (bitlen n - 53) then none
  else some (roundSig n * 2 ^ (bitlen n - 53))

/-- Numeric value of one dot-separated segment, modelling the source's
`Number(seg) || 0` on the segments this program compares: a non-empty
decimal digit string parses to its value rounded to the nearest binary64
(`some` the integer the double denotes, `none` for `+Infinity` overflow);
`Number("") = 0`; a segment that is not a plain digit string — `NaN` in
JS — maps to `0` through `|| 0`.  (Exotic JS numeric forms such as signs,
exponents or surrounding spaces are outside the claims' domain and also
map to `0` here.) -/
def segNum (s : String) : Option Nat :=
  if s ≠ "" ∧ s.data.all (fun c => c.isDigit) then roundDouble (digitsVal s.data)
  else some 0

/-- JS `===` on the number values a segment can take (all are nonnegative
integer-valued doubles or `+Infinity`; `Infinity === Infinity` holds). -/
def jsEq : Option Nat → Option Nat → Bool
  | none, none => true
  | some a, some b => a == b
  | _, _ => false

/-- The sign-relevant result of the comparator: a finite number, or an
infinity. -/
inductive CmpRes where
  | negInf
  | fin (z : Int)
  | posInf
deriving DecidableEq, Repr

/-- The value `numA - numB` the comparison loop returns at the first
unequal position: JS subtraction of two (nonnegative integer-valued)
doubles, with the difference itself rounded to a double and overflowing
to an infinity. -/
def jsCmpVal : Option Nat → Option Nat → CmpRes
  | none, none => .fin 0
  | none, some _ => .posInf
  | some _, none => .negInf
  | some a, some b =>
    if b ≤ a then
      match roundDouble (a - b) with
      | none => .posInf
      | some v => .fin v
    else
      match roundDouble (b - a) with
      | none => .negInf
      | some v => .fin (-(v : Int))

/-- Whether a comparator result is `≤ 0` (what `Array.sort` consumes). -/
def cmpLe0 : CmpRes → Bool
  | .negInf => true
  | .fin z => decide (z ≤ 0)
  | .posInf => false

/-- The tail of the comparison loop once the left side is exhausted:
every remaining left component reads as `0`. Split out so `cmpParts` is
structurally recursive on its first argument. -/
def cmpNilGo : List (Option Nat) → CmpRes
  | [] => .fin 0
  | b :: bs => if jsEq (some 0) b then cmpNilGo bs else jsCmpVal (some 0) b

/-- The comparison loop of `GitService.compareVersions`: at the first
index where the (zero-defaulted) components are `!==`, return their
difference. -/
def cmpParts : List (Option Nat) → List (Option Nat) → CmpRes
  | [], bs => cmpNilGo bs
  | a :: as, [] => if jsEq a (some 0) then cmpParts as [] else jsCmpVal a (some 0)
  | a :: as, b :: bs => if jsEq a b then cmpParts as bs else jsCmpVal a b

/-- `GitService.compareVersions`: split on `.`, convert segments to
numbers (IEEE doubles), compare component-wise with missing components
read as `0`. -/
def compareVersions (a b : String) : CmpRes :=
  cmpParts ((jsSplit a ".").map segNum) ((jsSplit b ".").map segNum)

/-- `tag.split("@").pop() ?? ""`: the version part of a tag. -/
def versionOf (tag : String) : String :=
  ((jsSplit tag "@").getLast?).getD ""

/-- The order in which `getLastTag` sorts package tags: `a` precedes `b`
when the JS comparator `compareVersions(versionB, versionA)` is `≤ 0`,
i.e. descending by version. -/
def tagSortRel (a b : String) : Prop :=
  cmpLe0 (compareVersions (versionOf b) (versionOf a)) = true

instance : DecidableRel tagSortRel := fun a b =>
  inferInstanceAs (Decidable (cmpLe0 (compareVersions (versionOf b) (versionOf a)) = true))

/-- The pointwise order on segment values (`none` is `+Infinity`) that
`jsCmpVal`'s sign realizes. -/
def jle : Option Nat → Option Nat → Prop
  | none, none => True
  | none, some _ => False
  | some _, none => True
  | some a, some b => a ≤ b

/-- `GitService.getLastTag`: filter the repository tags to those of the
form `<packageName>@...`, sort descending by version, return the first
(or `""` when none exist).  The JS in-place `Array.sort` with a consistent
comparator is modelled by insertion sort over `tagSortRel`. -/
def getLastTag (packageName : String) (tags : List String) : String :=
  let packageTags :=
    List.insertionSort tagSortRel
      (tags.filter (fun t => jsStartsWith t (packageName ++ "@")))
  packageTags.headD ""

/-- Zero-padding of a component list to length `n`. -/
def padZeros (l : List Nat) (n : Nat) : List Nat :=
  l ++ List.replicate (n - l.length) 0

/-- Spec-side comparison: lexicographic comparison of two equal-length
component lists, returning the difference at the first differing index. -/
def lexCompare : List Nat → List Nat → Int
  | [], _ => 0
  | _ :: _, [] => 0
  | a :: as, b :: bs => if a ≠ b then (a : Int) - (b : Int) else lexCompare as bs

/-- Spec-side exact comparison loop: the source's loop shape over the
exact (unrounded) integer segment values — the idealized arithmetic the
claim attributes to `compareVersions`. -/
def cmpPartsExact : List Nat → List Nat → Int
  | [], [] => 0
  | [], b :: bs => if 0 ≠ b then 0 - (b : Int) else cmpPartsExact [] bs
  | a :: as, [] => if a ≠ 0 then (a : Int) - 0 else cmpPartsExact as []
  | a :: as, b :: bs => if a ≠ b then (a : Int) - (b : Int) else cmpPartsExact as bs

/-- Spec-side version comparison: read each dot-separated segment as a
decimal integer, pad the shorter list with zeros, compare component-wise. -/
def specVersionCompare (a b : String) : Int :=
  let pa := (jsSplit a ".").map (fun s => digitsVal s.data)
  let pb := (jsSplit b ".").map (fun s => digitsVal s.data)
  let n := max pa.length pb.length
  lexCompare (padZeros pa n) (padZeros pb n)

/-! ### Git configuration and status validation (`GitService.validateStatus`) -/

/-- The `GitConfig` fields consumed by `GitService` (from `types/config`). -/
structure GitConfig where
  tagPrefix : Option String
  requireCleanWorkingDirectory : Bool
  requireUpToDate : Bool
  commitMessage : String
  tagMessage : Option String
  allowedBranches : Option (List String)
  remote : String

/-- The fields of simple-git's `status()` result that `validateStatus`
reads (`tracking` and `current` are nullable strings). -/
structure StatusResult where
  isClean : Bool
  files : List String
  current : Option String
  tracking : Option String
  behind : Nat

/-- The options object of `validateStatus`. -/
structure ValidateStatusOptions where
  skipUpstreamTracking : Option Bool
  force : Option Bool
  allowBranch : Option Bool

/-- The allowed-branches check at the end of `validateStatus`:
`config.allowedBranches?.length && !options?.force && !options?.allowBranch`. -/
def allowedBranchesCheck (cfg : GitConfig) (status : StatusResult)
    (options : Option ValidateStatusOptions) : Except String Unit :=
  match cfg.allowedBranches with
  | none => .ok ()
  | some allowed =>
    if allowed.length ≠ 0 ∧ optTruthy (options.bind (·.force)) = false ∧
        optTruthy (options.bind (·.allowBranch)) = false then
      let currentBranch := status.current.getD ""
      if allowed.contains currentBranch then .ok ()
      else
        .error ("Current branch " ++ currentBranch ++ " is not in allowed branches: " ++
          jsJoin ", " allowed ++ ".\n\nTo proceed anyway, you can:\n" ++
          "1. Switch to an allowed branch\n" ++
          "2. Run with --allow-branch to bypass branch restrictions")
    else .ok ()

/-- `options?.skipUpstreamTracking ?? !config.requireUpToDate`: the
nullish-coalesced skip condition of `validateStatus`. -/
def effectiveSkip (cfg : GitConfig) (options : Option ValidateStatusOptions) : Bool :=
  match options.bind (·.skipUpstreamTracking) with
  | some b => b
  | none => !cfg.requireUpToDate

/-- The early-exit condition of `validateStatus`:
`!status.tracking && (options?.skipUpstreamTracking ?? !config.requireUpToDate)`. -/
def skipRemoteChecks (cfg : GitConfig) (status : StatusResult)
    (options : Option ValidateStatusOptions) : Bool :=
  !(strTruthy status.tracking) && effectiveSkip cfg options

/-- `GitService.validateStatus`.  `fetchOk` models whether
`git fetch <remote>` succeeds when the up-to-date block runs. -/
def validateStatus (cfg : GitConfig) (fetchOk : Bool) (status : StatusResult)
    (options : Option ValidateStatusOptions) : Except String Unit :=
  if cfg.requireCleanWorkingDirectory ∧ status.isClean = false then
    .error ("Working directory is not clean. The following files have changes:\n- " ++
      jsJoin "\n- " status.files ++
      "\n\nTo proceed anyway, you can:\n1. Commit or stash your changes\n" ++
      "2. Run with --no-git-check to skip this check")
  else if skipRemoteChecks cfg status options then .ok ()
  else if cfg.requireUpToDate then
    if fetchOk = false then .error "fetch failed"
    else
      let currentBranch := status.current.getD ""
      if currentBranch = "" then .error "Not currently on any branch"
      else if strTruthy status.tracking ∧ status.behind > 0 ∧
          optTruthy (options.bind (·.force)) = false then
        .error ("Branch " ++ currentBranch ++ " is behind " ++
          (status.tracking.getD "") ++ " by " ++ toString status.behind ++
          " commits.\nPlease run 'git pull' to update your local branch or use --force to override.")
      else allowedBranchesCheck cfg status options
  else allowedBranchesCheck cfg status options

/-- Whether an `Except` result is a success. -/
def exceptOk {ε α : Type} : Except ε α → Bool
  | .ok _ => true
  | .error _ => false

/-! ### Tag creation and deletion (`createTag`, `deleteTag`) -/

/-- Modelled from the spec: `src/utils/format-tag.ts` (`formatGitTag`) is
not among the sources; per the spec (§6), the annotated tag is named
`<optional-prefix><packageName>@<version>`. -/
def formatGitTag (tagPrefix : Option String) (packageName version : String) : String :=
  tagPrefix.getD "" ++ packageName ++ "@" ++ version

/-- `GitService.getTagName`. -/
def getTagName (cfg : GitConfig) (packageName version : String) : String :=
  formatGitTag cfg.tagPrefix packageName version

/-- `PackageContext` fields consumed by `GitService`. -/
structure PackageContext where
  name : String
  path : String
  currentVersion : String
  newVersion : Option String

/-- Attempted git tag operations, recorded in order. -/
inductive TagEffect where
  | localDelete (tag : String)
  | remoteDelete (tag : String)
  | addTag (tag : String) (message : String)
deriving DecidableEq, Repr

/-- Environment for the tag operations: existence of tags (`rev-parse`)
and the outcome of each git mutation (`none` = success, `some e` = the
underlying git call throws with message `e`). -/
structure TagEnv where
  localTagExists : String → Bool
  localDelete : String → Option String
  remoteDelete : String → Option String
  addAnnotatedTag : String → Option String

/-- `GitService.deleteTag`: deletes the local tag only when it exists
(failure is fatal), then best-effort deletes the remote tag (failure is
swallowed by the inner catch).  Returns the outcome and the attempted
operations in order. -/
def deleteTag (cfg : GitConfig) (env : TagEnv) (tagName : String)
    (remote : Option Bool) : Except String Unit × List TagEffect :=
  let localTagExists := env.localTagExists tagName
  if localTagExists then
    match env.localDelete tagName with
    | some e =>
      (.error ("Failed to delete tag " ++ tagName ++ ": " ++ e), [.localDelete tagName])
    | none =>
      if optTruthy remote ∧ cfg.remote ≠ "" then
        (.ok (), [.localDelete tagName, .remoteDelete tagName])
      else (.ok (), [.localDelete tagName])
  else
    if optTruthy remote ∧ cfg.remote ≠ "" then (.ok (), [.remoteDelete tagName])
    else (.ok (), [])

/-- The "already exists" error message of `createTag`, naming the manual
deletion steps. -/
def alreadyExistsMsg (cfg : GitConfig) (tagName : String) : String :=
  "Tag " ++ tagName ++ " " ++ "already exists" ++
    ". Use --force to overwrite or manually delete the tag with:\n\n  " ++
    "git tag -d " ++ tagName ++ "\n  " ++ "git push " ++ cfg.remote ++
    " :refs/tags/" ++ tagName

/-- `GitService.createTag`: refuses to overwrite an existing tag unless
`force` is set, in which case the tag is deleted (local and best-effort
remote) before the annotated tag is recreated.  The catch block rewrites
any error whose message contains "already exists" into the manual-steps
message.  Returns the outcome and the attempted operations in order. -/
def createTag (cfg : GitConfig) (env : TagEnv) (ctx : PackageContext)
    (force : Option Bool) : Except String String × List TagEffect :=
  match ctx.newVersion with
  | none => (.error "Version is required to create a tag", [])
  | some v =>
    let tagName := getTagName cfg ctx.name v
    let tagMessage := cfg.tagMessage.getD ("Release " ++ tagName)
    if env.localTagExists tagName then
      if optTruthy force then
        match deleteTag cfg env tagName (some true) with
        | (.error e, effs) =>
          (if jsIncludes e "already exists" then .error (alreadyExistsMsg cfg tagName)
            else .error e, effs)
        | (.ok _, effs) =>
          match env.addAnnotatedTag tagName with
          | some e =>
            (if jsIncludes e "already exists" then .error (alreadyExistsMsg cfg tagName)
              else .error e, effs ++ [.addTag tagName tagMessage])
          | none => (.ok tagName, effs ++ [.addTag tagName tagMessage])
      else (.error (alreadyExistsMsg cfg tagName), [])
    else
      match env.addAnnotatedTag tagName with
      | some e =>
        (if jsIncludes e "already exists" then .error (alreadyExistsMsg cfg tagName)
          else .error e, [.addTag tagName tagMessage])
      | none => (.ok tagName, [.addTag tagName tagMessage])

/-! ### Release commit (`GitService.commitChanges`) and the generated
default configuration (`generateMonorepoConfig`) -/

/-- `GitService.commitChanges`: stages the package manifest and the
changelog file (paths relative to the repository root, empty strings
filtered out) and commits with the configured template, substituting the
first occurrence of each placeholder.  `rel` and `join` model Node's
`path.relative` and `path.join`; the returned pair is (staged files,
commit message) as handed to the git adapter. -/
def commitChanges (cfg : GitConfig) (rel join : String → String → String)
    (rootDir : String) (ctx : PackageContext) (changelogPath : String) :
    Except String (List String × String) :=
  match ctx.newVersion with
  | none => .error "New version is required to create a commit message"
  | some v =>
    let relativePackagePath := rel rootDir ctx.path
    let relativeChangelogPath := rel rootDir changelogPath
    let filesToAdd :=
      [join relativePackagePath "package.json", relativeChangelogPath].filter (· ≠ "")
    let commitMessage :=
      replaceFirst (replaceFirst cfg.commitMessage "$\x7bpackageName\x7d" ctx.name)
        "$\x7bversion\x7d" v
    .ok (filesToAdd, commitMessage)

/-- The `git` section of the configuration produced by
`generateMonorepoConfig` (`templates/monorepo-config.ts`).  Note that the
commit-message template interpolates the package.json name at generation
time (template literal) and leaves only `${version}` as a placeholder
(escaped `\${version}` in the source). -/
def generateMonorepoConfig (packageJsonName : String) : Except String GitConfig :=
  if packageJsonName = "" then .error "Package name is required"
  else
    .ok
      { tagPrefix := some ""
        requireCleanWorkingDirectory := true
        requireUpToDate := true
        commitMessage := "chore(release): release " ++ packageJsonName ++ "@$\x7bversion\x7d"
        tagMessage := none
        allowedBranches := some ["main", "master"]
        remote := "origin" }

/-! ### Validate command dispatch (`ValidateCommand.validatePackage`) -/

/-- The six named checks of the validation registry. -/
inductive Check where
  | auth | git | deps | vers | changelog | publish
deriving DecidableEq, Repr

/-- The flags of `ValidateCommandOptions` that drive check selection
(commander leaves an unset boolean flag `undefined`). -/
structure ValidateOptions where
  authOnly : Option Bool
  gitOnly : Option Bool
  depsOnly : Option Bool
  versionOnly : Option Bool
  changelogOnly : Option Bool
  publishOnly : Option Bool
  skipAuth : Option Bool
  skipGit : Option Bool
  skipDeps : Option Bool
  skipVersion : Option Bool
  skipChangelog : Option Bool
  skipPublish : Option Bool

/-- The `--*-only` flag for a check. -/
def onlyFlag (o : ValidateOptions) : Check → Option Bool
  | .auth => o.authOnly
  | .git => o.gitOnly
  | .deps => o.depsOnly
  | .vers => o.versionOnly
  | .changelog => o.changelogOnly
  | .publish => o.publishOnly

/-- The `--skip-*` flag for a check. -/
def skipFlag (o : ValidateOptions) : Check → Option Bool
  | .auth => o.skipAuth
  | .git => o.skipGit
  | .deps => o.skipDeps
  | .vers => o.skipVersion
  | .changelog => o.skipChangelog
  | .publish => o.skipPublish

/-- `onlyMode`: the nullish-coalescing chain
`authOnly ?? gitOnly ?? depsOnly ?? versionOnly ?? changelogOnly ?? publishOnly`. -/
def onlyMode (o : ValidateOptions) : Option Bool :=
  nco o.authOnly (nco o.gitOnly (nco o.depsOnly
    (nco o.versionOnly (nco o.changelogOnly o.publishOnly))))

/-- The inclusion predicate `shouldValidate` of
`ValidateCommand.validatePackage`. -/
def shouldValidate (o : ValidateOptions) (c : Check) : Bool :=
  if optTruthy (onlyMode o) then optTruthy (onlyFlag o c)
  else !(optTruthy (skipFlag o c))

/-- The validations actually pushed by `validatePackage`, in order (the
"Package Manager" validation serves both the `auth` and `publish` checks). -/
def ranValidations (o : ValidateOptions) : List String :=
  (if shouldValidate o .git then ["Git Status"] else []) ++
  (if shouldValidate o .auth || shouldValidate o .publish then ["Package Manager"] else []) ++
  (if shouldValidate o .deps then ["Dependencies"] else []) ++
  (if shouldValidate o .vers then ["Version Format"] else []) ++
  (if shouldValidate o .changelog then ["Changelog"] else [])

/-! ### Release command (`src/commands/release.ts`) and dry-run projection -/

/-- The pipeline states of the release state machine (spec §4.5). -/
inductive PipelineState where
  | PENDING | VALIDATED | VERSION_COMPUTED | CHANGELOG_WRITTEN
  | COMMITTED | TAGGED | PUSHED | PUBLISHED | DONE
deriving DecidableEq, Repr

/-- The projection report displayed by a dry run. -/
structure DryRunReport where
  packageName : String
  currentVersion : String
  newVersion : String
  tagName : String
  willPush : Bool
  willPublish : Bool
  changelog : String
deriving DecidableEq, Repr

/-- One analyzed package as returned by `releaseService.analyzeChanges`. -/
structure PackageChange where
  name : String
  currentVersion : String
  suggestedVersion : String
  changelogPreview : String
deriving DecidableEq, Repr

/-- Everything the release command run can do, recorded in order. -/
inductive ReleaseEffect where
  | analyze
  | previewReport (r : DryRunReport)
  | printChanges (pkg : String)
  | confirmPrompt
  | manifestWrite (pkg : String)
  | changelogWrite (pkg : String)
  | gitCommit (pkg : String)
  | gitTag (tag : String)
  | gitPush
  | npmPublish (pkg : String)
  | exitCode (n : Nat)
deriving DecidableEq, Repr

/-- The CLI options of the release command (commander boolean flags are
`true` or `undefined`; `--no-git-push`/`--no-npm-publish`/`--no-git-check`
can also yield `false`). -/
structure ReleaseOptions where
  all : Option Bool
  dryRun : Option Bool
  gitPush : Option Bool
  npmPublish : Option Bool
  showChanges : Option Bool
  gitCheck : Option Bool
  skipUpstreamTracking : Option Bool
  force : Option Bool
  allowBranch : Option Bool

/-- Modelled from the spec: `src/core/release.ts` (`ReleaseService`) is not
among the sources.  Per the spec (§4.5, dry-run mode), `createDryRunPreview`
executes the pure stages only and returns a projection report enumerating
the tag name, whether a push would occur, whether publish would occur and
the rendered changelog, without any side effect. -/
def createDryRunPreview (cfg : GitConfig) (opts : ReleaseOptions)
    (pkg : PackageChange) : DryRunReport :=
  { packageName := pkg.name
    currentVersion := pkg.currentVersion
    newVersion := pkg.suggestedVersion
    tagName := getTagName cfg pkg.name pkg.suggestedVersion
    willPush := opts.gitPush.getD true
    willPublish := opts.npmPublish.getD true
    changelog := pkg.changelogPreview }

/-- Modelled from the spec: the per-package pipeline of
`releaseService.releasePackages`/`releaseAll` (not among the sources).
Per the spec (§4.5), in dry-run mode it performs the pure stages and
produces a projection report, never performing COMMITTED onward; otherwise
it writes the manifest and changelog, commits, tags, and optionally pushes
and publishes. -/
def releasePackageEffects (cfg : GitConfig) (opts : ReleaseOptions)
    (pkg : PackageChange) : List ReleaseEffect :=
  if optTruthy opts.dryRun then [.previewReport (createDryRunPreview cfg opts pkg)]
  else
    [.manifestWrite pkg.name, .changelogWrite pkg.name, .gitCommit pkg.name,
      .gitTag (getTagName cfg pkg.name pkg.suggestedVersion)] ++
    (if opts.gitPush.getD true then [.gitPush] else []) ++
    (if opts.npmPublish.getD true then [.npmPublish pkg.name] else [])

/-- Modelled from the spec: pipeline states a package reaches (§4.5); a dry
run executes VALIDATED through CHANGELOG_WRITTEN and stops before
COMMITTED. -/
def reachedStates (dryRun : Bool) : List PipelineState :=
  if dryRun then [.PENDING, .VALIDATED, .VERSION_COMPUTED, .CHANGELOG_WRITTEN]
  else [.PENDING, .VALIDATED, .VERSION_COMPUTED, .CHANGELOG_WRITTEN,
    .COMMITTED, .TAGGED, .PUSHED, .PUBLISHED, .DONE]

/-- The action of `releaseCommand` (`src/commands/release.ts`), as the
ordered trace of what it does after the target package set `pkgs` has
been resolved.  `confirmed` is the answer to the confirmation prompt.
The show-changes block runs when `showChanges ?? dryRun` is truthy; inside
it a dry run prints a projection report per package and exits 0, otherwise
changes are printed and the prompt is shown before the release proper. -/
def releaseActionEffects (cfg : GitConfig) (opts : ReleaseOptions)
    (pkgs : List PackageChange) (confirmed : Bool) : List ReleaseEffect :=
  if pkgs = [] then [.exitCode 1]
  else if optTruthy (nco opts.showChanges opts.dryRun) then
    [.analyze] ++
    (pkgs.flatMap fun pkg =>
      if optTruthy opts.dryRun then [.previewReport (createDryRunPreview cfg opts pkg)]
      else [.printChanges pkg.name]) ++
    (if optTruthy opts.dryRun then [.exitCode 0]
      else [.confirmPrompt] ++
        (if confirmed then pkgs.flatMap (releasePackageEffects cfg opts)
          else [.exitCode 0]))
  else pkgs.flatMap (releasePackageEffects cfg opts)

/-- Effects that mutate a store or call a mutating git/registry adapter. -/
def isMutationEffect : ReleaseEffect → Bool
  | .manifestWrite _ => true
  | .changelogWrite _ => true
  | .gitCommit _ => true
  | .gitTag _ => true
  | .gitPush => true
  | .npmPublish _ => true
  | _ => false

/-! ### Concrete sample data used by counterexamples and witnesses -/

/-- A one-commit `git log` output in the reader's format. -/
def sampleLog : String :=
  "COMMIT\nabc123\n2024-01-01T00:00:00Z\nfix: bug\nFILES\nsrc/a.ts"

/-- The commit record parsed from `sampleLog`. -/
def sampleCommit : GitCommit :=
  { hash := "abc123", date := "2024-01-01T00:00:00Z", message := "fix: bug",
    body := none, files := ["src/a.ts"] }

/-- Environment whose ranged log call fails but whose full log succeeds. -/
def envFailingSince : GitLogEnv :=
  { verify := some "deadbee fix: bug", logSince := fun _ => none,
    logAll := some sampleLog }

/-- Environment whose ranged log call succeeds with `sampleLog`. -/
def envGoodSince : GitLogEnv :=
  { verify := some "deadbee fix: bug", logSince := fun _ => some sampleLog,
    logAll := none }

/-- Filter options naming package `a` at `packages/a`. -/
def optsPkgA : GetCommitsOptions :=
  { packageName := some "a", packagePath := some "packages/a", filterByPath := none }

/-- A git configuration with remote `origin` and no branch restrictions. -/
def cfgOrigin : GitConfig :=
  { tagPrefix := some "", requireCleanWorkingDirectory := true,
    requireUpToDate := true, commitMessage := "m", tagMessage := none,
    allowedBranches := none, remote := "origin" }

/-- Tag environment: local tag exists, local deletion succeeds, remote
deletion fails (to exercise tolerance), tag creation succeeds. -/
def tagEnvOkLocal : TagEnv :=
  { localTagExists := fun _ => true, localDelete := fun _ => none,
    remoteDelete := fun _ => some "remote deletion failed",
    addAnnotatedTag := fun _ => none }

/-- Tag environment: local tag exists but its deletion fails. -/
def tagEnvBadLocal : TagEnv :=
  { localTagExists := fun _ => true, localDelete := fun _ => some "boom",
    remoteDelete := fun _ => none, addAnnotatedTag := fun _ => none }

/-- Tag environment: no local tag; remote deletion fails. -/
def tagEnvNoLocal : TagEnv :=
  { localTagExists := fun _ => false, localDelete := fun _ => some "never called",
    remoteDelete := fun _ => some "remote deletion failed",
    addAnnotatedTag := fun _ => none }

/-- A configuration whose commit-message template repeats `${version}`. -/
def cfgDupVersion : GitConfig :=
  { tagPrefix := none, requireCleanWorkingDirectory := true,
    requireUpToDate := true,
    commitMessage := "$\x7bversion\x7d $\x7bversion\x7d", tagMessage := none,
    allowedBranches := none, remote := "origin" }

/-- Package `a` about to be released as 2.0.0. -/
def ctxA : PackageContext :=
  { name := "a", path := "packages/a", currentVersion := "1.0.0",
    newVersion := some "2.0.0" }

/-- Release CLI options for a plain `--dry-run` invocation. -/
def relOptsDry : ReleaseOptions :=
  { all := none, dryRun := some true, gitPush := none, npmPublish := none,
    showChanges := none, gitCheck := none, skipUpstreamTracking := none,
    force := none, allowBranch := none }

/-- One analyzed package for the release command. -/
def pkgChangeA : PackageChange :=
  { name := "a", currentVersion := "1.0.0", suggestedVersion := "1.0.1",
    changelogPreview := "### Fixed\n- bug" }

/-- Validate-command flags: `--git-only --skip-git` (skip must be ignored). -/
def valOptsGitOnly : ValidateOptions :=
  { authOnly := none, gitOnly := some true, depsOnly := none,
    versionOnly := none, changelogOnly := none, publishOnly := none,
    skipAuth := none, skipGit := some true, skipDeps := none,
    skipVersion := none, skipChangelog := none, skipPublish := none }

/-- Git configuration with up-to-date checking disabled and an
allowed-branches list. -/
def cfgBranches : GitConfig :=
  { tagPrefix := none, requireCleanWorkingDirectory := true,
    requireUpToDate := false, commitMessage := "m", tagMessage := none,
    allowedBranches := some ["main", "master"], remote := "origin" }

/-- A clean status on an untracked branch `dev` (not in the allowed list). -/
def statusDev : StatusResult :=
  { isClean := true, files := [], current := some "dev", tracking := none,
    behind := 0 }

/-- validateStatus options explicitly passing `skipUpstreamTracking: false`
(as `ValidateCommand.validateGitStatus` does via `!!options.skipUpstreamTracking`). -/
def vsOptsExplicitFalse : ValidateStatusOptions :=
  { skipUpstreamTracking := some false, force := none, allowBranch := none }

/-! ## Helper lemmas -/

theorem contains_eq_true_iff_mem (l : List String) (x : String) :
    (l.contains x = true) ↔ x ∈ l := by
  simp [List.contains_iff_exists_mem_beq]

theorem parseCommits_empty : parseCommits "" = [] := rfl

/-- Under pairwise-distinct hashes, membership of a commit's hash in the
hash list collected from a filtered copy of the commit list is exactly the
filter predicate. -/
theorem contains_map_hash_filter {commits : List GitCommit} {p : GitCommit → Bool}
    {c : GitCommit} (hnodup : (commits.map GitCommit.hash).Nodup) (hc : c ∈ commits) :
    ((commits.filter p).map GitCommit.hash).contains c.hash = p c := by
  by_cases hp : p c = true
  · rw [hp]
    exact (contains_eq_true_iff_mem _ _).2
      (List.mem_map_of_mem _ (List.mem_filter.2 ⟨hc, hp⟩))
  · have hp' : p c = false := by simpa using hp
    rw [hp']
    by_contra hne
    have hcon : ((commits.filter p).map GitCommit.hash).contains c.hash = true := by
      revert hne
      cases ((commits.filter p).map GitCommit.hash).contains c.hash <;> simp
    obtain ⟨a, ha, hah⟩ := List.mem_map.1 ((contains_eq_true_iff_mem _ _).1 hcon)
    obtain ⟨hac, hap⟩ := List.mem_filter.1 ha
    have hace : a = c := List.inj_on_of_nodup_map hnodup hac hc hah
    rw [hace] at hap
    rw [hap] at hp'
    exact Bool.true_eq_false.mp hp'

/-- Under pairwise-distinct hashes, the hash-set based OR filter of
`getCommitsSinceTag` is a plain filter by the two predicates. -/
theorem filterWithOptions_eq_filter {rootDir : String} {rel : String → String → String}
    {opts : GetCommitsOptions} {commits : List GitCommit}
    (hnodup : (commits.map GitCommit.hash).Nodup) :
    filterWithOptions rootDir rel opts commits =
      commits.filter (fun c => pathPred rootDir rel opts c || namePred opts c) := by
  unfold filterWithOptions
  refine List.filter_congr ?_
  intro c hc
  rw [contains_map_hash_filter hnodup hc, contains_map_hash_filter hnodup hc]

/-- A pattern occurs in any list exhibiting it between two contexts. -/
theorem hasOccur_append_right (pat : List Char) :
    ∀ (pre suf : List Char), hasOccur pat (pre ++ (pat ++ suf)) = true := by
  intro pre
  induction pre with
  | nil =>
    intro suf
    cases hps : pat ++ suf with
    | nil =>
      have hpat : pat = [] := by
        cases pat with
        | nil => rfl
        | cons x xs => simp at hps
      subst hpat
      simp [hasOccur, List.isPrefixOf]
    | cons c cs =>
      have hpre : pat.isPrefixOf (c :: cs) = true := by
        rw [← hps]
        simp [ List.isPrefixOf_iff_prefix]
      simp [hasOccur, hpre]
  | cons c cs ih =>
    intro suf
    simp [hasOccur, ih suf]

/-- `jsIncludes` holds whenever the data splits around the pattern. -/
theorem jsIncludes_of_parts (s sub : String) (l r : List Char)
    (h : s.data = l ++ (sub.data ++ r)) : jsIncludes s sub = true := by
  unfold jsIncludes
  rw [h]
  exact hasOccur_append_right sub.data l r

/-- Two strings with the same character data are equal. -/
theorem stringExt {a b : String} (h : a.data = b.data) : a = b := by
  cases a
  cases b
  exact congrArg String.mk h

/-- A pattern that occurs nowhere is not replaced. -/
theorem replFirst_no_occur (pat rep : List Char) :
    ∀ s, hasOccur pat s = false → replFirst pat rep s = s := by
  intro s
  induction s with
  | nil =>
    intro h
    simp only [hasOccur] at h
    simp [replFirst, h]
  | cons c cs ih =>
    intro h
    simp only [hasOccur, Bool.or_eq_false_iff] at h
    obtain ⟨h1, h2⟩ := h
    simp [replFirst, h1, ih h2]

/-- Replacement scans past a prefix free of the pattern's head character. -/
theorem replFirst_skip_prefix (p₀ : Char) (pat rep : List Char) :
    ∀ (pre s : List Char), (∀ c ∈ pre, c ≠ p₀) →
      replFirst (p₀ :: pat) rep (pre ++ s) = pre ++ replFirst (p₀ :: pat) rep s := by
  intro pre
  induction pre with
  | nil =>
    intro s _
    simp
  | cons c cs ih =>
    intro s hpre
    have hc : c ≠ p₀ := hpre c (List.mem_cons_self c cs)
    have hbeq : (p₀ == c) = false := by
      rw [beq_eq_false_iff_ne]
      exact Ne.symm hc
    have hpref : (p₀ :: pat).isPrefixOf (c :: (cs ++ s)) = false := by
      simp [List.isPrefixOf, hbeq]
    show replFirst (p₀ :: pat) rep (c :: (cs ++ s)) =
      c :: (cs ++ replFirst (p₀ :: pat) rep s)
    simp only [replFirst, hpref, Bool.false_eq_true, if_false]
    rw [ih s (fun x hx => hpre x (List.mem_cons_of_mem c hx))]

/-- Occurrence scanning skips a prefix free of the pattern's head character. -/
theorem hasOccur_skip_prefix (p₀ : Char) (pat : List Char) :
    ∀ (pre s : List Char), (∀ c ∈ pre, c ≠ p₀) →
      hasOccur (p₀ :: pat) (pre ++ s) = hasOccur (p₀ :: pat) s := by
  intro pre
  induction pre with
  | nil =>
    intro s _
    simp
  | cons c cs ih =>
    intro s hpre
    have hc : c ≠ p₀ := hpre c (List.mem_cons_self c cs)
    have hbeq : (p₀ == c) = false := by
      rw [beq_eq_false_iff_ne]
      exact Ne.symm hc
    have hpref : (p₀ :: pat).isPrefixOf (c :: (cs ++ s)) = false := by
      simp [List.isPrefixOf, hbeq]
    show hasOccur (p₀ :: pat) (c :: (cs ++ s)) = hasOccur (p₀ :: pat) s
    simp only [hasOccur, hpref, Bool.false_or]
    exact ih s (fun x hx => hpre x (List.mem_cons_of_mem c hx))

/-- Replacement fires at the first position where the pattern stands. -/
theorem replFirst_append_self (pat rep suf : List Char) :
    replFirst pat rep (pat ++ suf) = rep ++ suf := by
  cases hps : pat ++ suf with
  | nil =>
    have h : pat = [] ∧ suf = [] := by simpa using hps
    obtain ⟨h1, h2⟩ := h
    subst h1
    subst h2
    simp [replFirst, List.isPrefixOf]
  | cons c cs =>
    have hpref : pat.isPrefixOf (c :: cs) = true := by
      rw [← hps]
      simp [ List.isPrefixOf_iff_prefix]
    have hdrop : (c :: cs).drop pat.length = suf := by
      rw [← hps]
      exact List.drop_left pat suf
    simp [replFirst, hpref, hdrop]

/-- Replacing a pattern inside itself yields the replacement. -/
theorem replFirst_self (pat rep : List Char) : replFirst pat rep pat = rep := by
  have h := replFirst_append_self pat rep []
  simpa using h

/-- Substituting the two placeholders into the default generated template
`chore(release): release <N>@${version}` (the name `N` interpolated at
config-generation time) leaves the name part untouched and replaces
`${version}` by the new version, provided `N` contains no `$`. -/
theorem default_template_subst (N name v : String) (hN : ∀ c ∈ N.data, c ≠ '$') :
    replaceFirst
      (replaceFirst ("chore(release): release " ++ N ++ "@$\x7bversion\x7d")
        "$\x7bpackageName\x7d" name)
      "$\x7bversion\x7d" v =
    "chore(release): release " ++ N ++ "@" ++ v := by
  have hA : ∀ c ∈ ("chore(release): release " : String).data, c ≠ '$' := by decide
  have hpre : ∀ c ∈ ("chore(release): release " : String).data ++ (N.data ++ ['@']),
      c ≠ '$' := by
    intro c hc
    rcases List.mem_append.1 hc with h | h
    · exact hA c h
    · rcases List.mem_append.1 h with h | h
      · exact hN c h
      · simp only [List.mem_singleton] at h
        subst h
        decide
  have hdata : ("chore(release): release " ++ N ++ "@$\x7bversion\x7d" : String).data =
      (("chore(release): release " : String).data ++ (N.data ++ ['@'])) ++
        ("$\x7bversion\x7d" : String).data := by
    rw [String.data_append, String.data_append,
      show ("@$\x7bversion\x7d" : String).data =
        ['@'] ++ ("$\x7bversion\x7d" : String).data from rfl]
    simp [List.append_assoc]
  have hsplitP : ("$\x7bpackageName\x7d" : String).data =
      '$' :: ("\x7bpackageName\x7d" : String).data := rfl
  have hsplitV : ("$\x7bversion\x7d" : String).data =
      '$' :: ("\x7bversion\x7d" : String).data := rfl
  have hno : hasOccur ("$\x7bpackageName\x7d" : String).data
      ("chore(release): release " ++ N ++ "@$\x7bversion\x7d" : String).data = false := by
    rw [hdata, hsplitP, hasOccur_skip_prefix '$' _ _ _ hpre]
    decide
  have step1 : replaceFirst ("chore(release): release " ++ N ++ "@$\x7bversion\x7d")
      "$\x7bpackageName\x7d" name =
      "chore(release): release " ++ N ++ "@$\x7bversion\x7d" := by
    unfold replaceFirst
    rw [replFirst_no_occur _ _ _ hno]
  rw [step1]
  unfold replaceFirst
  apply stringExt
  show replFirst ("$\x7bversion\x7d" : String).data v.data
      ("chore(release): release " ++ N ++ "@$\x7bversion\x7d" : String).data =
    ("chore(release): release " ++ N ++ "@" ++ v : String).data
  rw [hdata, hsplitV, replFirst_skip_prefix '$' _ _ _ _ hpre, replFirst_self]
  rw [String.data_append, String.data_append, String.data_append,
    show ("@" : String).data = ['@'] from rfl]
  simp [List.append_assoc]

theorem cmpPartsExact_nil_nil : cmpPartsExact [] [] = 0 := by
  simp only [cmpPartsExact]

theorem cmpPartsExact_nil_cons (y : Nat) (ys : List Nat) :
    cmpPartsExact [] (y :: ys) =
      if 0 ≠ y then 0 - (y : Int) else cmpPartsExact [] ys := by
  simp only [cmpPartsExact]

theorem cmpPartsExact_cons_nil (x : Nat) (xs : List Nat) :
    cmpPartsExact (x :: xs) [] =
      if x ≠ 0 then (x : Int) - 0 else cmpPartsExact xs [] := by
  simp only [cmpPartsExact]

theorem cmpPartsExact_cons_cons (x y : Nat) (xs ys : List Nat) :
    cmpPartsExact (x :: xs) (y :: ys) =
      if x ≠ y then (x : Int) - (y : Int) else cmpPartsExact xs ys := by
  simp only [cmpPartsExact]

theorem lexCompare_cons_cons (x y : Nat) (xs ys : List Nat) :
    lexCompare (x :: xs) (y :: ys) =
      if x ≠ y then (x : Int) - (y : Int) else lexCompare xs ys := by
  simp only [lexCompare]

theorem padZeros_nil (n : Nat) : padZeros [] n = List.replicate n 0 := by
  simp [padZeros]

theorem padZeros_cons (a : Nat) (as : List Nat) (n : Nat) :
    padZeros (a :: as) (n + 1) = a :: padZeros as n := by
  simp [padZeros, Nat.succ_sub_succ]

/-- On zero-padded equal-length lists, lexicographic comparison agrees with
the exact comparison loop. -/
theorem lexCompare_padZeros (n : Nat) : ∀ (a b : List Nat),
    a.length ≤ n → b.length ≤ n →
    lexCompare (padZeros a n) (padZeros b n) = cmpPartsExact a b := by
  induction n with
  | zero =>
    intro a b ha hb
    have ha' : a = [] := List.length_eq_zero.1 (Nat.le_zero.1 ha)
    have hb' : b = [] := List.length_eq_zero.1 (Nat.le_zero.1 hb)
    subst ha'
    subst hb'
    simp [padZeros, lexCompare, cmpPartsExact]
  | succ n ih =>
    intro a b ha hb
    cases a with
    | nil =>
      cases b with
      | nil =>
        rw [padZeros_nil, List.replicate_succ, lexCompare_cons_cons]
        rw [if_neg (by omega : ¬(0 : Nat) ≠ 0)]
        have h := ih [] [] (by simp) (by simp)
        rw [padZeros_nil] at h
        exact h
      | cons y ys =>
        rw [padZeros_nil, List.replicate_succ, padZeros_cons,
          lexCompare_cons_cons, cmpPartsExact_nil_cons]
        by_cases hy : (0 : Nat) ≠ y
        · rw [if_pos hy, if_pos hy]
          omega
        · rw [if_neg hy, if_neg hy]
          have h := ih [] ys (by simp) (by simpa using hb)
          rw [padZeros_nil] at h
          exact h
    | cons x xs =>
      cases b with
      | nil =>
        rw [padZeros_nil, List.replicate_succ, padZeros_cons,
          lexCompare_cons_cons, cmpPartsExact_cons_nil]
        by_cases hx : x ≠ 0
        · rw [if_pos hx, if_pos hx]
          omega
        · rw [if_neg hx, if_neg hx]
          have h := ih xs [] (by simpa using ha) (by simp)
          rw [padZeros_nil] at h
          exact h
      | cons y ys =>
        rw [padZeros_cons, padZeros_cons, lexCompare_cons_cons, cmpPartsExact_cons_cons]
        by_cases hxy : x ≠ y
        · rw [if_pos hxy, if_pos hxy]
        · rw [if_neg hxy, if_neg hxy]
          exact ih xs ys (by simpa using ha) (by simpa using hb)

theorem dblMax_eq : dblMax = 2 ^ 1024 := by norm_num [dblMax]

theorem bitlenAux_zero (fuel : Nat) : bitlenAux fuel 0 = 0 := by
  cases fuel <;> simp [bitlenAux]

/-- With enough fuel, `bitlenAux` computes the exact bit length. -/
theorem bitlenAux_bounds : ∀ fuel n, n ≤ fuel → 1 ≤ n →
    2 ^ (bitlenAux fuel n - 1) ≤ n ∧ n < 2 ^ bitlenAux fuel n := by
  intro fuel
  induction fuel with
  | zero =>
    intro n hle hpos
    exact absurd hpos (by omega)
  | succ fuel ih =>
    intro n hle hpos
    have hn0 : ¬ n = 0 := by omega
    rw [show bitlenAux (fuel + 1) n = bitlenAux fuel (n / 2) + 1 from by
      simp [bitlenAux, hn0]]
    by_cases h2 : n / 2 = 0
    · have hn1 : n = 1 := by omega
      subst hn1
      rw [show (1 : Nat) / 2 = 0 from rfl, bitlenAux_zero]
      refine ⟨by norm_num, by norm_num⟩
    · have hstep : n / 2 ≤ fuel := by omega
      have hpos2 : 1 ≤ n / 2 := by omega
      obtain ⟨hlo, hhi⟩ := ih (n / 2) hstep hpos2
      have hk1 : 1 ≤ bitlenAux fuel (n / 2) := by
        by_contra hk0
        have hz : bitlenAux fuel (n / 2) = 0 := by omega
        rw [hz] at hhi
        simp at hhi
        omega
      constructor
      · have h2k : 2 ^ bitlenAux fuel (n / 2) =
            2 * 2 ^ (bitlenAux fuel (n / 2) - 1) := by
          conv_lhs => rw [show bitlenAux fuel (n / 2) =
            (bitlenAux fuel (n / 2) - 1) + 1 from by omega]
          rw [pow_succ']
        rw [show bitlenAux fuel (n / 2) + 1 - 1 = bitlenAux fuel (n / 2) from by omega]
        omega
      · rw [pow_succ']
        omega

theorem bitlen_bounds (n : Nat) (h : 1 ≤ n) :
    2 ^ (bitlen n - 1) ≤ n ∧ n < 2 ^ bitlen n :=
  bitlenAux_bounds n n (le_refl n) h

theorem roundDouble_small {n : Nat} (h : n < 2 ^ 53) : roundDouble n = some n := by
  unfold roundDouble
  rw [if_pos h]

/-- Rounding a positive number to a double never yields a smaller-than-one
finite value. -/
theorem roundDouble_pos {n v : Nat} (hn : 1 ≤ n) (h : roundDouble n = some v) :
    1 ≤ v := by
  unfold roundDouble at h
  by_cases hs : n < 2 ^ 53
  · rw [if_pos hs] at h
    cases h
    exact hn
  · rw [if_neg hs] at h
    by_cases hov : dblMax ≤ roundSig n * 2 ^ (bitlen n - 53)
    · rw [if_pos hov] at h
      cases h
    · rw [if_neg hov] at h
      cases h
      obtain ⟨hlo, hhi⟩ := bitlen_bounds n hn
      have h53 : 2 ^ 53 ≤ n := by omega
      have hbl : 54 ≤ bitlen n := by
        by_contra hlt
        have hle : bitlen n ≤ 53 := by omega
        have hp : (2 : Nat) ^ bitlen n ≤ 2 ^ 53 := Nat.pow_le_pow_right (by omega) hle
        omega
      have he : bitlen n - 53 ≤ bitlen n - 1 := by omega
      have hq : 2 ^ (bitlen n - 1 - (bitlen n - 53)) ≤ n / 2 ^ (bitlen n - 53) := by
        rw [← Nat.pow_div he (by omega)]
        exact Nat.div_le_div_right hlo
      have h52 : (1 : Nat) ≤ 2 ^ (bitlen n - 1 - (bitlen n - 53)) :=
        Nat.one_le_pow _ _ (by omega)
      have hq1 : 1 ≤ n / 2 ^ (bitlen n - 53) := le_trans h52 hq
      have hsig : 1 ≤ roundSig n := by
        unfold roundSig
        split
        · omega
        · omega
      have hp1 : (1 : Nat) ≤ 2 ^ (bitlen n - 53) := Nat.one_le_pow _ _ (by omega)
      calc 1 = 1 * 1 := by omega
        _ ≤ roundSig n * 2 ^ (bitlen n - 53) := Nat.mul_le_mul hsig hp1

theorem jsEq_iff (x y : Option Nat) : jsEq x y = true ↔ x = y := by
  cases x <;> cases y <;> simp [jsEq]

theorem jsEq_self (x : Option Nat) : jsEq x x = true := (jsEq_iff x x).2 rfl

theorem jle_total (x y : Option Nat) : jle x y ∨ jle y x := by
  cases x <;> cases y <;> simp [jle] <;> omega

theorem jle_trans {x y z : Option Nat} : jle x y → jle y z → jle x z := by
  cases x <;> cases y <;> cases z <;> simp [jle] <;> omega

theorem jle_antisymm {x y : Option Nat} : jle x y → jle y x → x = y := by
  cases x <;> cases y <;> simp [jle] <;> omega

/-- The sign of the comparator value realizes the pointwise order. -/
theorem cmpLe0_jsCmpVal (x y : Option Nat) :
    cmpLe0 (jsCmpVal x y) = true ↔ jle x y := by
  cases x with
  | none =>
    cases y with
    | none => simp [jsCmpVal, cmpLe0, jle]
    | some b => simp [jsCmpVal, cmpLe0, jle]
  | some a =>
    cases y with
    | none => simp [jsCmpVal, cmpLe0, jle]
    | some b =>
      simp only [jsCmpVal]
      by_cases hba : b ≤ a
      · rw [if_pos hba]
        by_cases hab : a = b
        · subst hab
          rw [show a - a = 0 from by omega,
            roundDouble_small (by positivity : (0 : Nat) < 2 ^ 53)]
          simp [cmpLe0, jle]
        · have hlt : b < a := by omega
          cases hr : roundDouble (a - b) with
          | none =>
            simp [cmpLe0, jle]
            omega
          | some v =>
            have hv : 1 ≤ v := roundDouble_pos (by omega) hr
            simp [cmpLe0, jle]
            omega
      · rw [if_neg hba]
        have hlt : a < b := by omega
        cases hr : roundDouble (b - a) with
        | none =>
          simp [cmpLe0, jle]
          omega
        | some v =>
          simp [cmpLe0, jle]
          omega

theorem cmpParts_nil_nil : cmpParts [] [] = .fin 0 := rfl

theorem cmpParts_nil_cons (y : Option Nat) (ys : List (Option Nat)) :
    cmpParts [] (y :: ys) =
      if jsEq (some 0) y then cmpParts [] ys else jsCmpVal (some 0) y := rfl

theorem cmpParts_cons_nil (x : Option Nat) (xs : List (Option Nat)) :
    cmpParts (x :: xs) [] =
      if jsEq x (some 0) then cmpParts xs [] else jsCmpVal x (some 0) := rfl

theorem cmpParts_cons_cons (x y : Option Nat) (xs ys : List (Option Nat)) :
    cmpParts (x :: xs) (y :: ys) =
      if jsEq x y then cmpParts xs ys else jsCmpVal x y := rfl

/-- Comparing against the empty component list from the left never exceeds
zero (every missing component is read as 0 ≤ anything). -/
theorem cmpParts_nil_le : ∀ c, cmpLe0 (cmpParts [] c) = true := by
  intro c
  induction c with
  | nil => rw [cmpParts_nil_nil]; rfl
  | cons y ys ih =>
    rw [cmpParts_nil_cons]
    by_cases h : jsEq (some 0) y = true
    · rw [if_pos h]
      exact ih
    · rw [if_neg h, cmpLe0_jsCmpVal]
      cases y with
      | none => simp [jle]
      | some m => simp [jle]

/-- `cmpParts a [] ≤ 0` exactly when every component of `a` is zero. -/
theorem cmpParts_nil_right_le_iff :
    ∀ a, cmpLe0 (cmpParts a []) = true ↔ ∀ x ∈ a, x = some 0 := by
  intro a
  induction a with
  | nil =>
    rw [cmpParts_nil_nil]
    simp [cmpLe0]
  | cons x xs ih =>
    rw [cmpParts_cons_nil]
    by_cases h : jsEq x (some 0) = true
    · have hx : x = some 0 := (jsEq_iff _ _).1 h
      rw [if_pos h]
      subst hx
      simp [ih]
    · have hx : ¬ x = some 0 := fun he => h ((jsEq_iff _ _).2 he)
      rw [if_neg h, cmpLe0_jsCmpVal]
      cases x with
      | none => simp [jle]
      | some m =>
        have hm : m ≠ 0 := fun h0 => hx (by rw [h0])
        simp [jle, hm]

/-- Totality of the comparator sign. -/
theorem cmpParts_total :
    ∀ a b, cmpLe0 (cmpParts a b) = true ∨ cmpLe0 (cmpParts b a) = true := by
  intro a
  induction a with
  | nil =>
    intro b
    exact Or.inl (cmpParts_nil_le b)
  | cons x xs ihx =>
    intro b
    cases b with
    | nil => exact Or.inr (cmpParts_nil_le (x :: xs))
    | cons y ys =>
      rw [cmpParts_cons_cons, cmpParts_cons_cons]
      by_cases h : jsEq x y = true
      · have hxy : x = y := (jsEq_iff _ _).1 h
        subst hxy
        rw [if_pos (jsEq_self x), if_pos (jsEq_self x)]
        exact ihx ys
      · have hxy : ¬ x = y := fun he => h ((jsEq_iff _ _).2 he)
        have h2 : ¬ jsEq y x = true := fun he => hxy ((jsEq_iff _ _).1 he).symm
        rw [if_neg h, if_neg h2, cmpLe0_jsCmpVal, cmpLe0_jsCmpVal]
        exact jle_total x y

theorem cmpParts_self_le : ∀ a, cmpLe0 (cmpParts a a) = true := by
  intro a
  induction a with
  | nil => exact cmpParts_nil_le []
  | cons x xs ih =>
    rw [cmpParts_cons_cons, if_pos (jsEq_self x)]
    exact ih

/-- Transitivity of the comparator sign, by induction on total length. -/
theorem cmpParts_trans_aux : ∀ n (a b c : List (Option Nat)),
    a.length + b.length + c.length ≤ n →
    cmpLe0 (cmpParts a b) = true → cmpLe0 (cmpParts b c) = true →
    cmpLe0 (cmpParts a c) = true := by
  intro n
  induction n with
  | zero =>
    intro a b c hlen h1 h2
    exact match a with
      | [] => cmpParts_nil_le c
      | x :: xs => by simp at hlen
  | succ n ih =>
    intro a b c hlen h1 h2
    cases a with
    | nil => exact cmpParts_nil_le c
    | cons x xs =>
      cases b with
      | nil =>
        have hall : ∀ w ∈ x :: xs, w = some 0 := (cmpParts_nil_right_le_iff _).1 h1
        have hx0 : x = some 0 := hall x (List.mem_cons_self x xs)
        subst hx0
        cases c with
        | nil => exact h1
        | cons z zs =>
          rw [cmpParts_cons_cons]
          by_cases hz : jsEq (some 0) z = true
          · rw [if_pos hz]
            have hz0 : z = some 0 := ((jsEq_iff _ _).1 hz).symm
            subst hz0
            rw [cmpParts_nil_cons, if_pos (jsEq_self (some 0))] at h2
            have h1' : cmpLe0 (cmpParts xs []) = true := by
              rw [cmpParts_nil_right_le_iff]
              intro w hw
              exact hall w (List.mem_cons_of_mem _ hw)
            exact ih xs [] zs (by simp at hlen ⊢; omega) h1' h2
          · rw [if_neg hz, cmpLe0_jsCmpVal]
            cases z with
            | none => simp [jle]
            | some m => simp [jle]
      | cons y ys =>
        cases c with
        | nil =>
          have hall : ∀ w ∈ y :: ys, w = some 0 := (cmpParts_nil_right_le_iff _).1 h2
          have hy0 : y = some 0 := hall y (List.mem_cons_self y ys)
          subst hy0
          rw [cmpParts_cons_cons] at h1
          rw [cmpParts_cons_nil]
          by_cases hx : jsEq x (some 0) = true
          · rw [if_pos hx]
            rw [if_pos hx] at h1
            have h2' : cmpLe0 (cmpParts ys []) = true := by
              rw [cmpParts_nil_right_le_iff]
              intro w hw
              exact hall w (List.mem_cons_of_mem _ hw)
            exact ih xs ys [] (by simp at hlen ⊢; omega) h1 h2'
          · rw [if_neg hx, cmpLe0_jsCmpVal] at h1
            exfalso
            have hxne : ¬ x = some 0 := fun he => hx ((jsEq_iff _ _).2 he)
            cases x with
            | none => simp [jle] at h1
            | some m =>
              simp [jle] at h1
              exact hxne (by rw [show m = 0 from by omega])
        | cons z zs =>
          rw [cmpParts_cons_cons] at h1 h2
          rw [cmpParts_cons_cons]
          by_cases hxy : jsEq x y = true
          · have hxy' : x = y := (jsEq_iff _ _).1 hxy
            subst hxy'
            rw [if_pos (jsEq_self x)] at h1
            by_cases hyz : jsEq x z = true
            · have hyz' : x = z := (jsEq_iff _ _).1 hyz
              subst hyz'
              rw [if_pos (jsEq_self x)] at h2
              rw [if_pos (jsEq_self x)]
              exact ih xs ys zs (by simp at hlen ⊢; omega) h1 h2
            · rw [if_neg hyz] at h2
              rw [if_neg hyz]
              exact h2
          · rw [if_neg hxy] at h1
            by_cases hyz : jsEq y z = true
            · have hyz' : y = z := (jsEq_iff _ _).1 hyz
              subst hyz'
              rw [if_neg hxy]
              exact h1
            · rw [if_neg hyz] at h2
              rw [cmpLe0_jsCmpVal] at h1 h2
              have hxz : ¬ jsEq x z = true := by
                intro he
                have hxz' : x = z := (jsEq_iff _ _).1 he
                subst hxz'
                exact hxy ((jsEq_iff _ _).2 (jle_antisymm h1 h2))
              rw [if_neg hxz, cmpLe0_jsCmpVal]
              exact jle_trans h1 h2

/-- Below `2^53` every segment value is exact, and the comparator computes
the exact integer comparison. -/
theorem cmpParts_nil_map_some : ∀ (pb : List Nat), (∀ x ∈ pb, x < 2 ^ 53) →
    cmpParts [] (pb.map some) = .fin (cmpPartsExact [] pb) := by
  intro pb
  induction pb with
  | nil =>
    intro _
    rw [cmpPartsExact_nil_nil]
    exact cmpParts_nil_nil
  | cons y ys ihy =>
    intro hb
    have hy53 : y < 2 ^ 53 := hb y (List.mem_cons_self _ _)
    rw [List.map_cons, cmpParts_nil_cons, cmpPartsExact_nil_cons]
    by_cases hy : y = 0
    · subst hy
      rw [if_pos (jsEq_self (some 0)), if_neg (by omega : ¬(0 : Nat) ≠ 0)]
      exact ihy (fun x hx => hb x (List.mem_cons_of_mem _ hx))
    · have hne : ¬ jsEq (some 0) (some y) = true := by
        intro he
        exact hy (Option.some.inj ((jsEq_iff _ _).1 he)).symm
      rw [if_neg hne, if_pos (by omega : (0 : Nat) ≠ y)]
      simp only [jsCmpVal]
      rw [if_neg (by omega : ¬ y ≤ 0), show y - 0 = y from by omega,
        roundDouble_small hy53]
      show CmpRes.fin (-(y : Int)) = CmpRes.fin (0 - (y : Int))
      congr 1
      omega

/-- The comparison loop on exactly-representable segment values equals the
exact comparison loop. -/
theorem cmpParts_map_some : ∀ (pa pb : List Nat),
    (∀ x ∈ pa, x < 2 ^ 53) → (∀ x ∈ pb, x < 2 ^ 53) →
    cmpParts (pa.map some) (pb.map some) = .fin (cmpPartsExact pa pb) := by
  intro pa
  induction pa with
  | nil =>
    intro pb _ hb
    exact cmpParts_nil_map_some pb hb
  | cons x xs ihx =>
    intro pb ha hb
    have hx53 : x < 2 ^ 53 := ha x (List.mem_cons_self _ _)
    cases pb with
    | nil =>
      rw [List.map_cons, List.map_nil, cmpParts_cons_nil, cmpPartsExact_cons_nil]
      by_cases hx : x = 0
      · subst hx
        rw [if_pos (jsEq_self (some 0)), if_neg (by omega : ¬(0 : Nat) ≠ 0)]
        exact ihx [] (fun w hw => ha w (List.mem_cons_of_mem _ hw)) (by simp)
      · have hne : ¬ jsEq (some x) (some 0) = true := by
          intro he
          exact hx (Option.some.inj ((jsEq_iff _ _).1 he))
        rw [if_neg hne, if_pos (by omega : x ≠ 0)]
        simp only [jsCmpVal]
        rw [if_pos (by omega : (0 : Nat) ≤ x), show x - 0 = x from by omega,
          roundDouble_small hx53]
        show CmpRes.fin ((x : Nat) : Int) = CmpRes.fin ((x : Int) - 0)
        congr 1
    | cons y ys =>
      have hy53 : y < 2 ^ 53 := hb y (List.mem_cons_self _ _)
      rw [List.map_cons, List.map_cons, cmpParts_cons_cons, cmpPartsExact_cons_cons]
      by_cases hxy : x = y
      · subst hxy
        rw [if_pos (jsEq_self (some x)), if_neg (by omega : ¬ x ≠ x)]
        exact ihx ys (fun w hw => ha w (List.mem_cons_of_mem _ hw))
          (fun w hw => hb w (List.mem_cons_of_mem _ hw))
      · have hne : ¬ jsEq (some x) (some y) = true := by
          intro he
          exact hxy (Option.some.inj ((jsEq_iff _ _).1 he))
        rw [if_neg hne, if_pos hxy]
        simp only [jsCmpVal]
        by_cases hba : y ≤ x
        · rw [if_pos hba, roundDouble_small (show x - y < 2 ^ 53 from by omega)]
          show CmpRes.fin ((x - y : Nat) : Int) = CmpRes.fin ((x : Int) - (y : Int))
          congr 1
          omega
        · rw [if_neg hba, roundDouble_small (show y - x < 2 ^ 53 from by omega)]
          show CmpRes.fin (-((y - x : Nat) : Int)) = CmpRes.fin ((x : Int) - (y : Int))
          congr 1
          omega

instance : IsTotal String tagSortRel :=
  ⟨fun a b => by
    unfold tagSortRel compareVersions
    exact cmpParts_total _ _⟩

instance : IsTrans String tagSortRel :=
  ⟨fun a b c h1 h2 => by
    unfold tagSortRel compareVersions at h1 h2 ⊢
    exact cmpParts_trans_aux
      (((jsSplit (versionOf c) ".").map segNum).length +
        ((jsSplit (versionOf b) ".").map segNum).length +
        ((jsSplit (versionOf a) ".").map segNum).length)
      _ _ _ (le_refl _) h2 h1⟩

theorem compareVersions_self_le (x : String) :
    cmpLe0 (compareVersions x x) = true := by
  unfold compareVersions
  exact cmpParts_self_le _

/-! ## Claims -/

/-- C1: for every package with no prior tag (empty tag argument),
`getCommitsSinceTag` returns exactly the commits of `getAllCommits`, as a
normal (non-error) result, regardless of the filter options. -/
theorem claim_C1_empty_tag_is_all_commits (rootDir : String)
    (rel : String → String → String) (env : GitLogEnv)
    (options : Option GetCommitsOptions) :
    getCommitsSinceTag rootDir rel env "" options = getAllCommits env := by
  simp [getCommitsSinceTag]

/-- C2 counterexample: with a non-empty tag whose ranged log call fails,
`getCommitsSinceTag` returns `[]`, not the repository's full commit list
(which is non-empty here), contradicting the claim that it returns all
commits instead. -/
theorem claim_C2_counterexample :
    getCommitsSinceTag "/" (fun _ p => p) envFailingSince "v1.0.0" none = [] ∧
    getAllCommits envFailingSince = [sampleCommit] ∧
    [sampleCommit] ≠ ([] : List GitCommit) := by
  refine ⟨rfl, by decide, by decide⟩

/-- C2 (amended): for every non-empty tag whose ranged log call fails,
`getCommitsSinceTag` does not raise — it returns the empty list. -/
theorem claim_C2_failed_log_returns_empty (rootDir : String)
    (rel : String → String → String) (env : GitLogEnv) (tag : String)
    (options : Option GetCommitsOptions)
    (htag : tag ≠ "") (hfail : env.logSince tag = none) :
    getCommitsSinceTag rootDir rel env tag options = [] := by
  unfold getCommitsSinceTag
  rw [if_neg htag]
  cases hv : env.verify <;> simp [hfail]

theorem claim_C2_witness :
    ("v1.0.0" ≠ "" ∧ envFailingSince.logSince "v1.0.0" = none) ∧
    getCommitsSinceTag "/" (fun _ p => p) envFailingSince "v1.0.0" none = [] :=
  ⟨⟨by decide, rfl⟩,
    claim_C2_failed_log_returns_empty "/" (fun _ p => p) envFailingSince "v1.0.0" none
      (by decide) rfl⟩

/-- C3 counterexample: an options object carrying neither a packagePath
nor a packageName does not leave the parsed commits unfiltered — it
filters every commit out, while the same call without an options object
returns the parsed commit. -/
theorem claim_C3_counterexample :
    getCommitsSinceTag "/" (fun _ p => p) envGoodSince "v1.0.0"
      (some { packageName := none, packagePath := none, filterByPath := none }) = [] ∧
    getCommitsSinceTag "/" (fun _ p => p) envGoodSince "v1.0.0" none = [sampleCommit] ∧
    [sampleCommit] ≠ ([] : List GitCommit) := by
  refine ⟨by decide, by decide, by decide⟩

/-- C3 (amended): for a successful ranged log whose parsed commits have
pairwise-distinct hashes, `getCommitsSinceTag` with an options object
keeps a commit iff some changed file starts with the package's relative
path (truthy `packagePath`) OR the subject or body contains the literal
`(<packageName>)` marker (truthy `packageName`); with no options object
every parsed commit is returned.  (With an options object carrying
neither input, both predicates are false, so every commit is excluded.) -/
theorem claim_C3_filter_or_semantics (rootDir : String)
    (rel : String → String → String) (env : GitLogEnv) (tag s result : String)
    (opts : GetCommitsOptions)
    (htag : tag ≠ "") (hver : env.verify = some s)
    (hlog : env.logSince tag = some result)
    (hnodup : ((parseCommits result).map GitCommit.hash).Nodup) :
    getCommitsSinceTag rootDir rel env tag (some opts) =
      (parseCommits result).filter
        (fun c => pathPred rootDir rel opts c || namePred opts c) ∧
    getCommitsSinceTag rootDir rel env tag none = parseCommits result := by
  constructor
  · unfold getCommitsSinceTag
    rw [if_neg htag, hver, hlog]
    by_cases hres : result = ""
    · subst hres
      rw [parseCommits_empty]
      simp
    · simp only [if_neg hres]
      exact filterWithOptions_eq_filter hnodup
  · unfold getCommitsSinceTag
    rw [if_neg htag, hver, hlog]
    by_cases hres : result = ""
    · subst hres
      rw [parseCommits_empty]
      simp
    · simp only [if_neg hres]

theorem claim_C3_witness :
    ("v1.0.0" ≠ "" ∧ envGoodSince.verify = some "deadbee fix: bug" ∧
      envGoodSince.logSince "v1.0.0" = some sampleLog ∧
      ((parseCommits sampleLog).map GitCommit.hash).Nodup) ∧
    (getCommitsSinceTag "/" (fun _ p => p) envGoodSince "v1.0.0" (some optsPkgA) =
      (parseCommits sampleLog).filter
        (fun c => pathPred "/" (fun _ p => p) optsPkgA c || namePred optsPkgA c) ∧
     getCommitsSinceTag "/" (fun _ p => p) envGoodSince "v1.0.0" none =
      parseCommits sampleLog) :=
  ⟨⟨by decide, rfl, rfl, by decide⟩,
    claim_C3_filter_or_semantics "/" (fun _ p => p) envGoodSince "v1.0.0"
      "deadbee fix: bug" sampleLog optsPkgA (by decide) rfl rfl (by decide)⟩

/-- C5: when the computed tag already exists, `createTag` without `force`
fails with the "already exists" error naming the manual deletion steps
(`git tag -d`, `git push :refs/tags/`) and attempts no tag operation;
with `force` (and succeeding git calls) it deletes the existing tag first
and then recreates the annotated tag. -/
theorem claim_C5_createTag_exists_semantics (cfg : GitConfig) (env : TagEnv)
    (ctx : PackageContext) (force : Option Bool) (v : String)
    (hv : ctx.newVersion = some v)
    (hex : env.localTagExists (getTagName cfg ctx.name v) = true) :
    (optTruthy force = false →
      createTag cfg env ctx force =
        (.error (alreadyExistsMsg cfg (getTagName cfg ctx.name v)), []) ∧
      jsIncludes (alreadyExistsMsg cfg (getTagName cfg ctx.name v))
        "already exists" = true ∧
      jsIncludes (alreadyExistsMsg cfg (getTagName cfg ctx.name v))
        ("git tag -d " ++ getTagName cfg ctx.name v) = true ∧
      jsIncludes (alreadyExistsMsg cfg (getTagName cfg ctx.name v))
        ("git push " ++ cfg.remote ++ " :refs/tags/" ++ getTagName cfg ctx.name v) = true) ∧
    (optTruthy force = true →
      env.localDelete (getTagName cfg ctx.name v) = none →
      env.addAnnotatedTag (getTagName cfg ctx.name v) = none →
      createTag cfg env ctx force =
        (.ok (getTagName cfg ctx.name v),
          TagEffect.localDelete (getTagName cfg ctx.name v) ::
            ((if cfg.remote ≠ "" then
                [TagEffect.remoteDelete (getTagName cfg ctx.name v)] else []) ++
              [TagEffect.addTag (getTagName cfg ctx.name v)
                (cfg.tagMessage.getD ("Release " ++ getTagName cfg ctx.name v))]))) := by
  constructor
  · intro hforce
    refine ⟨?_, ?_, ?_, ?_⟩
    · simp [createTag, hv, hex, hforce]
    · refine jsIncludes_of_parts _ _ ("Tag " ++ getTagName cfg ctx.name v ++ " ").data
        ((". Use --force to overwrite or manually delete the tag with:\n\n  " ++
          "git tag -d " ++ getTagName cfg ctx.name v ++ "\n  " ++ "git push " ++
          cfg.remote ++ " :refs/tags/" ++ getTagName cfg ctx.name v).data) ?_
      simp [alreadyExistsMsg, List.append_assoc]
    · refine jsIncludes_of_parts _ _
        (("Tag " ++ getTagName cfg ctx.name v ++ " " ++ "already exists" ++
          ". Use --force to overwrite or manually delete the tag with:\n\n  ").data)
        (("\n  " ++ "git push " ++ cfg.remote ++ " :refs/tags/" ++
          getTagName cfg ctx.name v).data) ?_
      simp [alreadyExistsMsg, List.append_assoc]
    · refine jsIncludes_of_parts _ _
        (("Tag " ++ getTagName cfg ctx.name v ++ " " ++ "already exists" ++
          ". Use --force to overwrite or manually delete the tag with:\n\n  " ++
          "git tag -d " ++ getTagName cfg ctx.name v ++ "\n  ").data) [] ?_
      simp [alreadyExistsMsg, List.append_assoc]
  · intro hforce hdel hadd
    by_cases hr : cfg.remote = "" <;>
      simp [createTag, deleteTag, hv, hex, hforce, hdel, hadd, hr,
        show optTruthy (some true) = true from rfl]

theorem claim_C5_witness :
    (({ name := "a", path := "packages/a", currentVersion := "1.0.0",
        newVersion := some "1.0.1" } : PackageContext).newVersion = some "1.0.1" ∧
      tagEnvOkLocal.localTagExists (getTagName cfgOrigin "a" "1.0.1") = true ∧
      optTruthy none = false ∧ optTruthy (some true) = true ∧
      tagEnvOkLocal.localDelete (getTagName cfgOrigin "a" "1.0.1") = none ∧
      tagEnvOkLocal.addAnnotatedTag (getTagName cfgOrigin "a" "1.0.1") = none) ∧
    createTag cfgOrigin tagEnvOkLocal
      { name := "a", path := "packages/a", currentVersion := "1.0.0",
        newVersion := some "1.0.1" } none =
      (.error (alreadyExistsMsg cfgOrigin (getTagName cfgOrigin "a" "1.0.1")), []) ∧
    createTag cfgOrigin tagEnvOkLocal
      { name := "a", path := "packages/a", currentVersion := "1.0.0",
        newVersion := some "1.0.1" } (some true) =
      (.ok (getTagName cfgOrigin "a" "1.0.1"),
        TagEffect.localDelete (getTagName cfgOrigin "a" "1.0.1") ::
          ((if cfgOrigin.remote ≠ "" then
              [TagEffect.remoteDelete (getTagName cfgOrigin "a" "1.0.1")] else []) ++
            [TagEffect.addTag (getTagName cfgOrigin "a" "1.0.1")
              (cfgOrigin.tagMessage.getD
                ("Release " ++ getTagName cfgOrigin "a" "1.0.1"))])) :=
  ⟨⟨rfl, rfl, rfl, rfl, rfl, rfl⟩,
    ((claim_C5_createTag_exists_semantics cfgOrigin tagEnvOkLocal
      { name := "a", path := "packages/a", currentVersion := "1.0.0",
        newVersion := some "1.0.1" } none "1.0.1" rfl rfl).1 rfl).1,
    (claim_C5_createTag_exists_semantics cfgOrigin tagEnvOkLocal
      { name := "a", path := "packages/a", currentVersion := "1.0.0",
        newVersion := some "1.0.1" } (some true) "1.0.1" rfl rfl).2 rfl rfl rfl⟩

/-- C6: `deleteTag` with the remote flag succeeds even when the remote
deletion fails; a failing deletion of an existing local tag raises the
"Failed to delete tag" error; when no local tag exists, no local deletion
is attempted and the call succeeds. -/
theorem claim_C6_deleteTag_failure_semantics (cfg : GitConfig) (env : TagEnv)
    (t : String) :
    ((env.localTagExists t = true → env.localDelete t = none) →
      (deleteTag cfg env t (some true)).1 = .ok ()) ∧
    (∀ e, env.localTagExists t = true → env.localDelete t = some e →
      deleteTag cfg env t (some true) =
        (.error ("Failed to delete tag " ++ t ++ ": " ++ e), [.localDelete t])) ∧
    (env.localTagExists t = false →
      (deleteTag cfg env t (some true)).1 = .ok () ∧
      TagEffect.localDelete t ∉ (deleteTag cfg env t (some true)).2) := by
  refine ⟨?_, ?_, ?_⟩
  · intro h
    cases hexists : env.localTagExists t
    · by_cases hr : cfg.remote = "" <;> simp [deleteTag, hexists, optTruthy, hr]
    · by_cases hr : cfg.remote = "" <;>
        simp [deleteTag, hexists, h hexists, optTruthy, hr]
  · intro e hexists hdel
    simp [deleteTag, hexists, hdel]
  · intro hexists
    by_cases hr : cfg.remote = "" <;> simp [deleteTag, hexists, optTruthy, hr]

theorem claim_C6_witness :
    ((tagEnvOkLocal.localTagExists "a@1.0.1" = true →
        tagEnvOkLocal.localDelete "a@1.0.1" = none) ∧
      (deleteTag cfgOrigin tagEnvOkLocal "a@1.0.1" (some true)).1 = .ok ()) ∧
    (tagEnvBadLocal.localTagExists "a@1.0.1" = true ∧
      tagEnvBadLocal.localDelete "a@1.0.1" = some "boom" ∧
      deleteTag cfgOrigin tagEnvBadLocal "a@1.0.1" (some true) =
        (.error ("Failed to delete tag " ++ "a@1.0.1" ++ ": " ++ "boom"),
          [.localDelete "a@1.0.1"])) ∧
    (tagEnvNoLocal.localTagExists "a@1.0.1" = false ∧
      (deleteTag cfgOrigin tagEnvNoLocal "a@1.0.1" (some true)).1 = .ok () ∧
      TagEffect.localDelete "a@1.0.1" ∉
        (deleteTag cfgOrigin tagEnvNoLocal "a@1.0.1" (some true)).2) :=
  ⟨⟨fun _ => rfl,
    (claim_C6_deleteTag_failure_semantics cfgOrigin tagEnvOkLocal "a@1.0.1").1
      (fun _ => rfl)⟩,
   ⟨rfl, rfl,
    (claim_C6_deleteTag_failure_semantics cfgOrigin tagEnvBadLocal "a@1.0.1").2.1
      "boom" rfl rfl⟩,
   ⟨rfl,
    (claim_C6_deleteTag_failure_semantics cfgOrigin tagEnvNoLocal "a@1.0.1").2.2 rfl⟩⟩

/-- C7: a dry-run invocation of the release command performs no mutation:
its whole effect trace consists of analysis, projection reports and exit
codes (no commit, tag, push, publish or store write), and the pipeline
never reaches the COMMITTED state.  (Reason `spec-modelled`:
`ReleaseService` itself is absent from the sources and modelled from the
spec; the command wiring is from `src/commands/release.ts`.) -/
theorem claim_C7_dry_run_purity (cfg : GitConfig) (opts : ReleaseOptions)
    (pkgs : List PackageChange) (confirmed : Bool)
    (hdry : optTruthy opts.dryRun = true) :
    (∀ e ∈ releaseActionEffects cfg opts pkgs confirmed, isMutationEffect e = false) ∧
    (∀ e ∈ releaseActionEffects cfg opts pkgs confirmed,
      e = .analyze ∨ (∃ r, e = .previewReport r) ∨ (∃ n, e = .exitCode n)) ∧
    PipelineState.COMMITTED ∉ reachedStates (optTruthy opts.dryRun) := by
  have key : ∀ e ∈ releaseActionEffects cfg opts pkgs confirmed,
      e = .analyze ∨ (∃ r, e = .previewReport r) ∨ (∃ n, e = .exitCode n) := by
    intro e he
    unfold releaseActionEffects at he
    by_cases hp : pkgs = []
    · rw [if_pos hp] at he
      simp at he
      exact Or.inr (Or.inr ⟨1, he⟩)
    · rw [if_neg hp] at he
      cases hshow : optTruthy (nco opts.showChanges opts.dryRun)
      · rw [hshow] at he
        simp only [Bool.false_eq_true, if_false, List.mem_flatMap] at he
        obtain ⟨pkg, _, hein⟩ := he
        simp [releasePackageEffects, hdry] at hein
        exact Or.inr (Or.inl ⟨_, hein⟩)
      · rw [hshow] at he
        simp only [if_true] at he
        rcases List.mem_append.1 he with h1 | h2
        · rcases List.mem_append.1 h1 with ha | hb
          · simp at ha
            exact Or.inl ha
          · obtain ⟨pkg, _, hein⟩ := List.mem_flatMap.1 hb
            rw [hdry] at hein
            simp at hein
            exact Or.inr (Or.inl ⟨_, hein⟩)
        · rw [hdry] at h2
          simp at h2
          exact Or.inr (Or.inr ⟨0, h2⟩)
  refine ⟨?_, key, ?_⟩
  · intro e he
    rcases key e he with h | ⟨r, h⟩ | ⟨n, h⟩ <;> subst h <;> rfl
  · rw [hdry]
    decide

theorem claim_C7_witness :
    optTruthy relOptsDry.dryRun = true ∧
    ((∀ e ∈ releaseActionEffects cfgOrigin relOptsDry [pkgChangeA] true,
        isMutationEffect e = false) ∧
     (∀ e ∈ releaseActionEffects cfgOrigin relOptsDry [pkgChangeA] true,
        e = .analyze ∨ (∃ r, e = .previewReport r) ∨ (∃ n, e = .exitCode n)) ∧
     PipelineState.COMMITTED ∉ reachedStates (optTruthy relOptsDry.dryRun)) :=
  ⟨rfl, claim_C7_dry_run_purity cfgOrigin relOptsDry [pkgChangeA] true rfl⟩

/-- Truthiness of nullish coalescing is disjunction, provided the left
operand is never an explicit `false` (as for commander CLI flags). -/
theorem optTruthy_nco_or (a b : Option Bool) (ha : a ≠ some false) :
    optTruthy (nco a b) = (optTruthy a || optTruthy b) := by
  cases a with
  | none => simp [nco, optTruthy]
  | some x =>
    cases x with
    | true => simp [nco, optTruthy]
    | false => exact absurd rfl ha

/-- Under CLI-shaped only-flags, `onlyMode` is truthy exactly when some
only-flag is truthy. -/
theorem onlyMode_truthy (o : ValidateOptions)
    (hcli : ∀ c, onlyFlag o c ≠ some false) :
    optTruthy (onlyMode o) =
      (optTruthy o.authOnly || optTruthy o.gitOnly || optTruthy o.depsOnly ||
        optTruthy o.versionOnly || optTruthy o.changelogOnly ||
        optTruthy o.publishOnly) := by
  unfold onlyMode
  rw [optTruthy_nco_or _ _ (show o.authOnly ≠ some false from hcli .auth),
    optTruthy_nco_or _ _ (show o.gitOnly ≠ some false from hcli .git),
    optTruthy_nco_or _ _ (show o.depsOnly ≠ some false from hcli .deps),
    optTruthy_nco_or _ _ (show o.versionOnly ≠ some false from hcli .vers),
    optTruthy_nco_or _ _ (show o.changelogOnly ≠ some false from hcli .changelog)]
  simp [Bool.or_assoc]

/-- C9: with CLI-shaped flags (a boolean flag is absent or `true`), if at
least one `--*-only` flag is set then `shouldValidate` runs exactly the
checks whose only-flag is set, ignoring every `--skip-*` flag; if no only
flag is set, every check of the registry runs except the skipped ones. -/
theorem claim_C9_only_skip_dispatch (o : ValidateOptions)
    (hcli : ∀ c, onlyFlag o c ≠ some false) :
    ((∃ c, optTruthy (onlyFlag o c) = true) →
      ∀ c, shouldValidate o c = optTruthy (onlyFlag o c)) ∧
    ((∀ c, optTruthy (onlyFlag o c) = false) →
      ∀ c, shouldValidate o c = !(optTruthy (skipFlag o c))) := by
  constructor
  · rintro ⟨c₀, hc₀⟩ c
    have hmode : optTruthy (onlyMode o) = true := by
      rw [onlyMode_truthy o hcli]
      cases c₀ <;> simp only [onlyFlag] at hc₀ <;> simp [hc₀]
    simp [shouldValidate, hmode]
  · intro hall c
    have hmode : optTruthy (onlyMode o) = false := by
      rw [onlyMode_truthy o hcli]
      simp [show optTruthy o.authOnly = false from hall .auth,
        show optTruthy o.gitOnly = false from hall .git,
        show optTruthy o.depsOnly = false from hall .deps,
        show optTruthy o.versionOnly = false from hall .vers,
        show optTruthy o.changelogOnly = false from hall .changelog,
        show optTruthy o.publishOnly = false from hall .publish]
    simp [shouldValidate, hmode]

theorem claim_C9_witness :
    (∀ c, onlyFlag valOptsGitOnly c ≠ some false) ∧
    (((∃ c, optTruthy (onlyFlag valOptsGitOnly c) = true) →
        ∀ c, shouldValidate valOptsGitOnly c = optTruthy (onlyFlag valOptsGitOnly c)) ∧
      ((∀ c, optTruthy (onlyFlag valOptsGitOnly c) = false) →
        ∀ c, shouldValidate valOptsGitOnly c = !(optTruthy (skipFlag valOptsGitOnly c)))) :=
  ⟨by intro c; cases c <;> decide,
    claim_C9_only_skip_dispatch valOptsGitOnly (by intro c; cases c <;> decide)⟩

/-- C10 counterexample: with `requireUpToDate` disabled but
`skipUpstreamTracking` explicitly passed as `false`, an untracked branch
does NOT short-circuit to success: the allowed-branches check still runs
and rejects branch `dev`.  This refutes the claim's disjunction
"skipUpstreamTracking requested OR requireUpToDate disabled". -/
theorem claim_C10_counterexample :
    strTruthy statusDev.tracking = false ∧
    cfgBranches.requireUpToDate = false ∧
    exceptOk (validateStatus cfgBranches true statusDev (some vsOptsExplicitFalse)) = false := by
  refine ⟨rfl, rfl, by decide⟩

/-- C10 (amended): whenever the working-directory check passes, the current
branch has no upstream tracking branch, and the coalesced skip condition
`options?.skipUpstreamTracking ?? !requireUpToDate` is true (i.e.
`skipUpstreamTracking` is passed as true, or it is not provided and
`requireUpToDate` is disabled), `validateStatus` succeeds immediately,
skipping the behind-remote and allowed-branches checks — even when the
current branch is not in the allowed-branches list. -/
theorem claim_C10_untracked_skip (cfg : GitConfig) (fetchOk : Bool)
    (status : StatusResult) (options : Option ValidateStatusOptions)
    (hclean : ¬(cfg.requireCleanWorkingDirectory ∧ status.isClean = false))
    (htrack : strTruthy status.tracking = false)
    (hskip : effectiveSkip cfg options = true) :
    validateStatus cfg fetchOk status options = .ok () := by
  simp [validateStatus, hclean, skipRemoteChecks, htrack, hskip]

theorem claim_C10_witness :
    (¬(cfgBranches.requireCleanWorkingDirectory ∧ statusDev.isClean = false) ∧
      strTruthy statusDev.tracking = false ∧
      effectiveSkip cfgBranches none = true) ∧
    validateStatus cfgBranches true statusDev none = .ok () :=
  ⟨⟨by decide, rfl, rfl⟩,
    claim_C10_untracked_skip cfgBranches true statusDev none (by decide) rfl rfl⟩

/-- C8 counterexample: JS `String.replace` with a string pattern replaces
only the FIRST occurrence, so a template repeating `${version}` keeps its
second placeholder un-substituted — the message is not the template with
every placeholder replaced. -/
theorem claim_C8_counterexample :
    commitChanges cfgDupVersion (fun _ p => p) (fun a b => a ++ "/" ++ b) "/"
      ctxA "packages/a/CHANGELOG.md" =
      .ok (["packages/a/package.json", "packages/a/CHANGELOG.md"],
        "2.0.0 $\x7bversion\x7d") ∧
    ("2.0.0 $\x7bversion\x7d" : String) ≠ "2.0.0 2.0.0" := by
  refine ⟨rfl, by decide⟩

/-- C8 (amended): `commitChanges` stages the package manifest and the
changelog file and commits with the configured template after replacing
the FIRST occurrence of `${packageName}` by the package name and then the
first occurrence of `${version}` by the new version; under the default
configuration generated for a package.json named `N` (the name is
interpolated into the template at generation time), the message is
`chore(release): release <N>@<version>`. -/
theorem claim_C8_commit_message (cfg : GitConfig) (rel join : String → String → String)
    (rootDir : String) (ctx : PackageContext) (changelogPath v : String)
    (hv : ctx.newVersion = some v) :
    commitChanges cfg rel join rootDir ctx changelogPath =
      .ok ([join (rel rootDir ctx.path) "package.json",
            rel rootDir changelogPath].filter (· ≠ ""),
        replaceFirst (replaceFirst cfg.commitMessage "$\x7bpackageName\x7d" ctx.name)
          "$\x7bversion\x7d" v) ∧
    (∀ N gcfg, generateMonorepoConfig N = .ok gcfg → (∀ c ∈ N.data, c ≠ '$') →
      commitChanges gcfg rel join rootDir ctx changelogPath =
        .ok ([join (rel rootDir ctx.path) "package.json",
              rel rootDir changelogPath].filter (· ≠ ""),
          "chore(release): release " ++ N ++ "@" ++ v)) := by
  constructor
  · simp [commitChanges, hv]
  · intro N gcfg hgen hN
    have hcm : gcfg.commitMessage =
        "chore(release): release " ++ N ++ "@$\x7bversion\x7d" := by
      unfold generateMonorepoConfig at hgen
      by_cases h : N = ""
      · rw [if_pos h] at hgen
        exact absurd hgen (by simp)
      · rw [if_neg h] at hgen
        cases hgen
        rfl
    simp [commitChanges, hv, hcm, default_template_subst N ctx.name v hN]

theorem claim_C8_witness :
    (ctxA.newVersion = some "2.0.0" ∧ generateMonorepoConfig "root" =
      .ok { tagPrefix := some "", requireCleanWorkingDirectory := true,
            requireUpToDate := true,
            commitMessage := "chore(release): release root@$\x7bversion\x7d",
            tagMessage := none, allowedBranches := some ["main", "master"],
            remote := "origin" } ∧
      (∀ c ∈ ("root" : String).data, c ≠ '$')) ∧
    (commitChanges cfgOrigin (fun _ p => p) (fun a b => a ++ "/" ++ b) "/"
        ctxA "packages/a/CHANGELOG.md" =
      .ok ([(fun a b => a ++ "/" ++ b) ((fun _ p => p) "/" ctxA.path) "package.json",
            (fun _ p => p) "/" "packages/a/CHANGELOG.md"].filter (· ≠ ""),
        replaceFirst (replaceFirst cfgOrigin.commitMessage "$\x7bpackageName\x7d" ctxA.name)
          "$\x7bversion\x7d" "2.0.0") ∧
     (∀ N gcfg, generateMonorepoConfig N = .ok gcfg → (∀ c ∈ N.data, c ≠ '$') →
        commitChanges gcfg (fun _ p => p) (fun a b => a ++ "/" ++ b) "/"
          ctxA "packages/a/CHANGELOG.md" =
          .ok ([(fun a b => a ++ "/" ++ b) ((fun _ p => p) "/" ctxA.path) "package.json",
                (fun _ p => p) "/" "packages/a/CHANGELOG.md"].filter (· ≠ ""),
            "chore(release): release " ++ N ++ "@" ++ "2.0.0"))) :=
  ⟨⟨rfl, rfl, by decide⟩,
    claim_C8_commit_message cfgOrigin (fun _ p => p) (fun a b => a ++ "/" ++ b) "/"
      ctxA "packages/a/CHANGELOG.md" "2.0.0" rfl⟩

/-- C4 counterexample: `compareVersions` is not exact component-wise
integer comparison over all numeric-segment version strings: the two
numeric versions `9007199254740993` and `9007199254740992` (distinct
16-digit integers, same IEEE-754 double) compare equal in the source,
while exact integer comparison yields `+1`. -/
theorem claim_C4_counterexample :
    compareVersions "9007199254740993" "9007199254740992" = .fin 0 ∧
    specVersionCompare "9007199254740993" "9007199254740992" = 1 ∧
    CmpRes.fin 0 ≠ CmpRes.fin 1 :=
  ⟨by decide, by decide, by decide⟩

/-- C4 (amended): on version strings of dot-separated numeric segments
whose values are exactly representable in binary64 (below `2^53`),
`compareVersions` is exact component-wise integer comparison of the
segments with missing segments read as 0; on larger segments it compares
the rounded doubles, so distinct versions can compare equal.
`getLastTag` returns `""` when no `<packageName>@...` tag exists, and
otherwise one of those tags whose version is maximal under
`compareVersions`. -/
theorem claim_C4_compare_and_last_tag (a b packageName : String)
    (tags : List String)
    (ha : ∀ s ∈ jsSplit a ".", s ≠ "" ∧ s.data.all (fun c => c.isDigit) ∧
      digitsVal s.data < 2 ^ 53)
    (hb : ∀ s ∈ jsSplit b ".", s ≠ "" ∧ s.data.all (fun c => c.isDigit) ∧
      digitsVal s.data < 2 ^ 53) :
    compareVersions a b = .fin (specVersionCompare a b) ∧
    ((∀ t ∈ tags, jsStartsWith t (packageName ++ "@") = false) →
      getLastTag packageName tags = "") ∧
    (∀ t ∈ tags, jsStartsWith t (packageName ++ "@") = true →
      getLastTag packageName tags ∈ tags ∧
      jsStartsWith (getLastTag packageName tags) (packageName ++ "@") = true ∧
      (∀ u ∈ tags, jsStartsWith u (packageName ++ "@") = true →
        cmpLe0 (compareVersions (versionOf u)
          (versionOf (getLastTag packageName tags))) = true)) := by
  refine ⟨?_, ?_, ?_⟩
  · -- exact component-wise comparison below 2^53
    have hsa : (jsSplit a ".").map segNum =
        ((jsSplit a ".").map (fun s => digitsVal s.data)).map some := by
      rw [List.map_map]
      apply List.map_congr_left
      intro s hs
      obtain ⟨h1, h2, h3⟩ := ha s hs
      unfold segNum
      rw [if_pos ⟨h1, h2⟩]
      exact roundDouble_small h3
    have hsb : (jsSplit b ".").map segNum =
        ((jsSplit b ".").map (fun s => digitsVal s.data)).map some := by
      rw [List.map_map]
      apply List.map_congr_left
      intro s hs
      obtain ⟨h1, h2, h3⟩ := hb s hs
      unfold segNum
      rw [if_pos ⟨h1, h2⟩]
      exact roundDouble_small h3
    have hA : ∀ x ∈ (jsSplit a ".").map (fun s => digitsVal s.data), x < 2 ^ 53 := by
      intro x hx
      obtain ⟨s, hs, rfl⟩ := List.mem_map.1 hx
      exact (ha s hs).2.2
    have hB : ∀ x ∈ (jsSplit b ".").map (fun s => digitsVal s.data), x < 2 ^ 53 := by
      intro x hx
      obtain ⟨s, hs, rfl⟩ := List.mem_map.1 hx
      exact (hb s hs).2.2
    unfold compareVersions
    rw [hsa, hsb, cmpParts_map_some _ _ hA hB]
    congr 1
    show cmpPartsExact ((jsSplit a ".").map (fun s => digitsVal s.data))
        ((jsSplit b ".").map (fun s => digitsVal s.data)) =
      lexCompare
        (padZeros ((jsSplit a ".").map (fun s => digitsVal s.data))
          (max ((jsSplit a ".").map (fun s => digitsVal s.data)).length
            ((jsSplit b ".").map (fun s => digitsVal s.data)).length))
        (padZeros ((jsSplit b ".").map (fun s => digitsVal s.data))
          (max ((jsSplit a ".").map (fun s => digitsVal s.data)).length
            ((jsSplit b ".").map (fun s => digitsVal s.data)).length))
    exact (lexCompare_padZeros _ _ _ (le_max_left _ _) (le_max_right _ _)).symm
  · -- no matching tag
    intro hnone
    have hfil : tags.filter (fun t => jsStartsWith t (packageName ++ "@")) = [] := by
      rw [List.filter_eq_nil_iff]
      intro t ht
      simp [hnone t ht]
    show (List.insertionSort tagSortRel
      (tags.filter (fun t => jsStartsWith t (packageName ++ "@")))).headD "" = ""
    rw [hfil]
    rfl
  · -- some matching tag: the head of the sorted list is a maximal tag
    intro t ht hts
    have htf : t ∈ tags.filter (fun t => jsStartsWith t (packageName ++ "@")) :=
      List.mem_filter.2 ⟨ht, hts⟩
    cases hs : List.insertionSort tagSortRel
        (tags.filter (fun t => jsStartsWith t (packageName ++ "@"))) with
    | nil =>
      exfalso
      have hperm := List.perm_insertionSort tagSortRel
        (tags.filter (fun t => jsStartsWith t (packageName ++ "@")))
      rw [hs] at hperm
      rw [hperm.symm.eq_nil] at htf
      exact absurd htf (List.not_mem_nil t)
    | cons h rest =>
      have hres : getLastTag packageName tags = h := by
        show (List.insertionSort tagSortRel
          (tags.filter (fun t => jsStartsWith t (packageName ++ "@")))).headD "" = h
        rw [hs]
        rfl
      have hmem : h ∈ tags.filter (fun t => jsStartsWith t (packageName ++ "@")) := by
        rw [← List.mem_insertionSort (r := tagSortRel), hs]
        exact List.mem_cons_self h rest
      obtain ⟨hhtags, hhpred⟩ := List.mem_filter.1 hmem
      rw [hres]
      refine ⟨hhtags, by simpa using hhpred, ?_⟩
      intro u hu hup
      have huf : u ∈ tags.filter (fun t => jsStartsWith t (packageName ++ "@")) :=
        List.mem_filter.2 ⟨hu, hup⟩
      have husort : u ∈ h :: rest := by
        rw [← hs]
        exact (List.mem_insertionSort (r := tagSortRel)).2 huf
      rcases List.mem_cons.1 husort with hueq | hurest
      · subst hueq
        exact compareVersions_self_le (versionOf u)
      · have hsor := List.sorted_insertionSort tagSortRel
          (tags.filter (fun t => jsStartsWith t (packageName ++ "@")))
        rw [hs] at hsor
        exact List.rel_of_sorted_cons hsor u hurest

theorem claim_C4_witness :
    ((∀ s ∈ jsSplit "1.2" ".", s ≠ "" ∧ s.data.all (fun c => c.isDigit) ∧
        digitsVal s.data < 2 ^ 53) ∧
      (∀ s ∈ jsSplit "1.10.0" ".", s ≠ "" ∧ s.data.all (fun c => c.isDigit) ∧
        digitsVal s.data < 2 ^ 53)) ∧
    (compareVersions "1.2" "1.10.0" = .fin (specVersionCompare "1.2" "1.10.0") ∧
      ((∀ t ∈ ["pkg@1.9.0", "other@2.0.0", "pkg@1.10.0", "pkg@1.2.3"],
          jsStartsWith t ("pkg" ++ "@") = false) →
        getLastTag "pkg" ["pkg@1.9.0", "other@2.0.0", "pkg@1.10.0", "pkg@1.2.3"] = "") ∧
      (∀ t ∈ ["pkg@1.9.0", "other@2.0.0", "pkg@1.10.0", "pkg@1.2.3"],
        jsStartsWith t ("pkg" ++ "@") = true →
        getLastTag "pkg" ["pkg@1.9.0", "other@2.0.0", "pkg@1.10.0", "pkg@1.2.3"] ∈
          ["pkg@1.9.0", "other@2.0.0", "pkg@1.10.0", "pkg@1.2.3"] ∧
        jsStartsWith
          (getLastTag "pkg" ["pkg@1.9.0", "other@2.0.0", "pkg@1.10.0", "pkg@1.2.3"])
          ("pkg" ++ "@") = true ∧
        (∀ u ∈ ["pkg@1.9.0", "other@2.0.0", "pkg@1.10.0", "pkg@1.2.3"],
          jsStartsWith u ("pkg" ++ "@") = true →
          cmpLe0 (compareVersions (versionOf u)
            (versionOf (getLastTag "pkg"
              ["pkg@1.9.0", "other@2.0.0", "pkg@1.10.0", "pkg@1.2.3"]))) = true))) :=
  ⟨⟨by decide, by decide⟩,
    claim_C4_compare_and_last_tag "1.2" "1.10.0" "pkg"
      ["pkg@1.9.0", "other@2.0.0", "pkg@1.10.0", "pkg@1.2.3"]
      (by decide) (by decide)⟩

end Publisher
